import Mathlib

/-!
Shallow embedding of the shufti-mask compiler (`components/parser/genshufmap.py`)
and its decoder (`components/parser/parseshufmap.py`).

Categories are lists of byte values (the Python code iterates over the
characters of a string and takes `ord`); the compiler returns
`(cat_masks, high_mask, low_mask)` on success.  The Python code reports the
capacity-exceeded failure through `sys.exit(1)`; the embedding models that
terminal failure as `none` (no output is produced).

Python's `sorted` is a stable sort; the embedding uses an insertion sort that
places an element before the first element it compares `≤` to, which is the
same stable ascending order, so both compute the unique stable sort of the
input by the given key.
-/

namespace Xrs

/-- Python's `<=` on lists of integers: lexicographic, shorter-is-smaller. -/
def listLeB : List Nat → List Nat → Bool
  | [], _ => true
  | _ :: _, [] => false
  | x :: xs, y :: ys => if x < y then true else if y < x then false else listLeB xs ys

/-- Insert `a` before the first element `b` of an ascending list with `le a b`. -/
def orderedInsert (le : α → α → Bool) (a : α) : List α → List α
  | [] => [a]
  | b :: l => if le a b then a :: b :: l else b :: orderedInsert le a l

/-- Stable ascending sort, the embedding of Python's `sorted(l, key=...)`
composed with the comparison `le` on keys. -/
def insertionSort (le : α → α → Bool) : List α → List α
  | [] => []
  | a :: l => orderedInsert le a (insertionSort le l)

/-- Maximal runs of consecutive elements with equal keys, paired with the
shared key: the embedding of `itertools.groupby`. -/
def groupRuns (key : α → κ) [DecidableEq κ] : List α → List (κ × List α)
  | [] => []
  | a :: l =>
    match groupRuns key l with
    | [] => [(key a, [a])]
    | (k, g) :: out =>
      if key a = k then (k, a :: g) :: out else (key a, [a]) :: (k, g) :: out

/-- Embedding of `group_by_unsorted`: sort by key (stable), then group
consecutive equal keys.  `dict_by_unsorted` builds a `dict` from the same
pairs and Python dicts preserve insertion order, so it is the same list. -/
def group_by_unsorted (l : List α) (key : α → κ) (le : κ → κ → Bool) [DecidableEq κ] :
    List (κ × List α) :=
  groupRuns key (insertionSort (fun x y => le (key x) (key y)) l)

/-- Embedding of the `Item` dataclass.  The `chr` field is the character whose
code point is `ord`; it never enters the computation, so only the numeric
fields are kept. -/
structure Item where
  ord : Nat
  high : Nat
  low : Nat
deriving DecidableEq, Repr

/-- Embedding of `bit_mask`: `reduce(or_, map(lambda x: 1 << x, idx_bits), 0)`. -/
def bit_mask (idx_bits : List Nat) : Nat :=
  idx_bits.foldl (fun acc x => acc ||| (1 <<< x)) 0

/-- Embedding of `shufti_mask`. -/
def shufti_mask (values : List Nat) (bit : Nat) : List Nat :=
  (List.range 16).map (fun i => if i ∈ values then 1 <<< bit else 0)

/-- Embedding of `or_shufti_masks`. -/
def or_shufti_masks (left right : List Nat) : List Nat :=
  List.zipWith (· ||| ·) left right

/-- Embedding of `build_nibble_masks`: `enumerate(l, start=cat_bit)` becomes
`List.enum` with the index shifted by `cat_bit`. -/
def build_nibble_masks (l : List (List Nat × List Nat)) (cat_bit : Nat) :
    List Nat × List Nat :=
  ((l.enum.map (fun p => shufti_mask p.2.1 (cat_bit + p.1))).foldl
      or_shufti_masks (List.replicate 16 0),
    (l.enum.map (fun p => shufti_mask p.2.2 (cat_bit + p.1))).foldl
      or_shufti_masks (List.replicate 16 0))

/-- Per-category item list: `ord`, `high = ord >> 4`, `low = ord & 0x0f`. -/
def cat_items (cat : List Nat) : List Item :=
  cat.map (fun o => { ord := o, high := o >>> 4, low := o &&& 0x0f })

/-- Embedding of `hreduce = dict_by_unsorted(items, attrgetter("high"))`. -/
def hreduce (cat : List Nat) : List (Nat × List Item) :=
  group_by_unsorted (cat_items cat) Item.high (fun a b => decide (a ≤ b))

/-- Embedding of `hmask1`. -/
def hmask1 (cat : List Nat) : List (List Nat × List Nat) :=
  (hreduce cat).map (fun p => ([p.1], p.2.map Item.low))

/-- Embedding of `hmask2`: group `hmask1` by its low list (`itemgetter(1)`);
`high[0]` on the singleton high list becomes `headD 0`. -/
def hmask2 (cat : List Nat) : List (List Nat × List Nat) :=
  (group_by_unsorted (hmask1 cat) Prod.snd listLeB).map
    (fun p => (p.2.map (fun q => q.1.headD 0), p.1))

/-- Embedding of `lreduce = dict_by_unsorted(items, attrgetter("low"))`. -/
def lreduce (cat : List Nat) : List (Nat × List Item) :=
  group_by_unsorted (cat_items cat) Item.low (fun a b => decide (a ≤ b))

/-- Embedding of `lmask1`. -/
def lmask1 (cat : List Nat) : List (List Nat × List Nat) :=
  (lreduce cat).map (fun p => (p.2.map Item.high, [p.1]))

/-- Embedding of `lmask2`: group `lmask1` by its high list (`itemgetter(0)`). -/
def lmask2 (cat : List Nat) : List (List Nat × List Nat) :=
  (group_by_unsorted (lmask1 cat) Prod.fst listLeB).map
    (fun p => (p.1, p.2.map (fun q => q.2.headD 0)))

/-- Embedding of the local `mask = hmask2 if len(hmask2) < len(lmask2) else
lmask2`: the nibble groups chosen for one category. -/
def cat_groups (cat : List Nat) : List (List Nat × List Nat) :=
  if (hmask2 cat).length < (lmask2 cat).length then hmask2 cat else lmask2 cat

/-- Loop of `build_shufti_masks` over the categories, with the running state
`(high_mask, low_mask, cat_masks, cat_bit)`.  `sys.exit(1)` on
`cat_bit + n_cat_bits >= 8` is modelled as `none`. -/
def build_shufti_masks_go :
    List (List Nat) → List Nat → List Nat → List Nat → Nat →
      Option (List Nat × List Nat × List Nat)
  | [], high_mask, low_mask, cat_masks, _ => some (cat_masks, high_mask, low_mask)
  | cat :: rest, high_mask, low_mask, cat_masks, cat_bit =>
    let mask := cat_groups cat
    let cat_shufti_mask := build_nibble_masks mask cat_bit
    let n_cat_bits := mask.length
    if 8 ≤ cat_bit + n_cat_bits then none
    else
      build_shufti_masks_go rest
        (or_shufti_masks high_mask cat_shufti_mask.1)
        (or_shufti_masks low_mask cat_shufti_mask.2)
        (cat_masks ++ [bit_mask (List.range' cat_bit n_cat_bits)])
        (cat_bit + n_cat_bits)

/-- Embedding of `build_shufti_masks`: returns `(cat_masks, high_mask,
low_mask)` on success, `none` on the capacity-exceeded failure. -/
def build_shufti_masks (cats : List (List Nat)) :
    Option (List Nat × List Nat × List Nat) :=
  build_shufti_masks_go cats (List.replicate 16 0) (List.replicate 16 0) [] 0

/-- Embedding of `bit_test` from `parseshufmap.py`. -/
def bit_test (bits bit : Nat) : Bool :=
  (bits &&& (1 <<< bit)) != 0

/-- Embedding of `parse_shufti_mask`. -/
def parse_shufti_mask (high low : List Nat) : List (List Nat × List Nat) :=
  (List.range 8).map (fun i =>
    ((high.enum.filter (fun p => bit_test p.2 i)).map Prod.fst,
      (low.enum.filter (fun p => bit_test p.2 i)).map Prod.fst))

/-- Total number of classification bits the category list asks for. -/
def total_groups (cats : List (List Nat)) : Nat :=
  (cats.map (fun c => (cat_groups c).length)).sum

/-! Order facts about the comparison functions used as sort keys. -/

theorem listLeB_total : ∀ x y : List Nat, listLeB x y ∨ listLeB y x
  | [], _ => Or.inl rfl
  | _ :: _, [] => Or.inr rfl
  | a :: xs, b :: ys => by
    simp only [listLeB]
    rcases Nat.lt_trichotomy a b with h | h | h
    · simp [h]
    · subst h
      simpa [Nat.lt_irrefl] using listLeB_total xs ys
    · simp [h, Nat.lt_asymm h]

theorem listLeB_antisymm : ∀ x y : List Nat, listLeB x y → listLeB y x → x = y
  | [], [], _, _ => rfl
  | [], _ :: _, _, h => by simp [listLeB] at h
  | _ :: _, [], h, _ => by simp [listLeB] at h
  | a :: xs, b :: ys, h₁, h₂ => by
    simp only [listLeB] at h₁ h₂
    rcases Nat.lt_trichotomy a b with h | h | h
    · simp [h, Nat.lt_asymm h] at h₂
    · subst h
      simp only [Nat.lt_irrefl, if_false] at h₁ h₂
      rw [listLeB_antisymm xs ys h₁ h₂]
    · simp [h, Nat.lt_asymm h] at h₁

theorem listLeB_trans : ∀ x y z : List Nat, listLeB x y → listLeB y z → listLeB x z
  | [], _, _, _, _ => rfl
  | _ :: _, [], _, h, _ => by simp [listLeB] at h
  | _ :: _, _ :: _, [], _, h => by simp [listLeB] at h
  | a :: xs, b :: ys, c :: zs, h₁, h₂ => by
    simp only [listLeB] at h₁ h₂ ⊢
    rcases Nat.lt_trichotomy a b with hab | hab | hab <;>
      rcases Nat.lt_trichotomy b c with hbc | hbc | hbc
    all_goals try subst hab
    all_goals try subst hbc
    · simp [Nat.lt_trans hab hbc]
    · simp [hab]
    · simp [hab, Nat.lt_asymm hab] at h₂ ⊢
      omega
    · simp [hbc]
    · simp only [Nat.lt_irrefl, if_false] at h₁ h₂ ⊢
      exact listLeB_trans xs ys zs h₁ h₂
    · simp [hbc, Nat.lt_asymm hbc] at h₂
    · simp [hab, Nat.lt_asymm hab] at h₁
    · simp [hab, Nat.lt_asymm hab] at h₁
    · simp [hab, Nat.lt_asymm hab] at h₁

/-! Membership and sortedness facts about the stable sort. -/

theorem mem_orderedInsert (le : α → α → Bool) (a x : α) :
    ∀ l : List α, (x ∈ orderedInsert le a l ↔ x = a ∨ x ∈ l)
  | [] => by simp [orderedInsert]
  | b :: l => by
    simp only [orderedInsert]
    by_cases h : le a b
    · simp [h]
    · rw [if_neg h]
      simp only [List.mem_cons, mem_orderedInsert le a x l]
      tauto

theorem mem_insertionSort (le : α → α → Bool) (x : α) :
    ∀ l : List α, (x ∈ insertionSort le l ↔ x ∈ l)
  | [] => Iff.rfl
  | a :: l => by
    simp [insertionSort, mem_orderedInsert, mem_insertionSort le x l]

theorem pairwise_orderedInsert (le : α → α → Bool)
    (htot : ∀ x y, le x y ∨ le y x) (htrans : ∀ x y z, le x y → le y z → le x z)
    (a : α) : ∀ l : List α, l.Pairwise (fun x y => le x y = true) →
      (orderedInsert le a l).Pairwise (fun x y => le x y = true)
  | [], _ => by simp [orderedInsert]
  | b :: l, hp => by
    rcases List.pairwise_cons.mp hp with ⟨hb, hl⟩
    simp only [orderedInsert]
    by_cases h : le a b
    · rw [if_pos h]
      refine List.pairwise_cons.mpr ⟨?_, hp⟩
      intro x hx
      rcases List.mem_cons.mp hx with rfl | hx
      · exact h
      · exact htrans a b x h (hb x hx)
    · rw [if_neg h]
      refine List.pairwise_cons.mpr ⟨?_, pairwise_orderedInsert le htot htrans a l hl⟩
      intro x hx
      rcases (mem_orderedInsert le a x l).mp hx with rfl | hx
      · rcases htot x b with h' | h'
        · exact absurd h' h
        · exact h'
      · exact hb x hx

theorem pairwise_insertionSort (le : α → α → Bool)
    (htot : ∀ x y, le x y ∨ le y x) (htrans : ∀ x y z, le x y → le y z → le x z) :
    ∀ l : List α, (insertionSort le l).Pairwise (fun x y => le x y = true)
  | [] => List.Pairwise.nil
  | a :: l => pairwise_orderedInsert le htot htrans a _
      (pairwise_insertionSort le htot htrans l)

/-! Structure of the runs produced by `groupRuns`. -/

theorem groupRuns_join (key : α → κ) [DecidableEq κ] :
    ∀ l : List α, ((groupRuns key l).map Prod.snd).join = l
  | [] => rfl
  | a :: l => by
    have ih := groupRuns_join key l
    simp only [groupRuns]
    cases h : groupRuns key l with
    | nil =>
      rw [h] at ih
      simp at ih
      simp [← ih]
    | cons p out =>
      obtain ⟨k, g⟩ := p
      rw [h] at ih
      by_cases hk : key a = k <;>
        simpa [hk] using ih

theorem groupRuns_key_eq (key : α → κ) [DecidableEq κ] :
    ∀ l : List α, ∀ p ∈ groupRuns key l, ∀ x ∈ p.2, key x = p.1
  | [], p, hp => by simp [groupRuns] at hp
  | a :: l, p, hp => by
    have ih := groupRuns_key_eq key l
    intro x hx
    cases h : groupRuns key l with
    | nil =>
      simp only [groupRuns, h] at hp
      simp at hp
      subst hp
      simp at hx
      subst hx
      rfl
    | cons q out =>
      obtain ⟨k, g⟩ := q
      simp only [groupRuns, h] at hp
      by_cases hk : key a = k
      · rw [if_pos hk] at hp
        rcases List.mem_cons.mp hp with rfl | hp
        · rcases List.mem_cons.mp hx with rfl | hx
          · exact hk
          · exact ih (k, g) (by rw [h]; exact List.mem_cons_self _ _) x hx
        · exact ih p (by rw [h]; exact List.mem_cons_of_mem _ hp) x hx
      · rw [if_neg hk] at hp
        rcases List.mem_cons.mp hp with rfl | hp
        · simp at hx
          subst hx
          rfl
        · exact ih p (by rw [h]; exact hp) x hx

theorem groupRuns_nonempty (key : α → κ) [DecidableEq κ] :
    ∀ l : List α, ∀ p ∈ groupRuns key l, p.2 ≠ []
  | [], p, hp => by simp [groupRuns] at hp
  | a :: l, p, hp => by
    have ih := groupRuns_nonempty key l
    cases h : groupRuns key l with
    | nil =>
      simp only [groupRuns, h] at hp
      simp at hp
      subst hp
      simp
    | cons q out =>
      obtain ⟨k, g⟩ := q
      simp only [groupRuns, h] at hp
      by_cases hk : key a = k
      · rw [if_pos hk] at hp
        rcases List.mem_cons.mp hp with rfl | hp
        · simp
        · exact ih p (by rw [h]; exact List.mem_cons_of_mem _ hp)
      · rw [if_neg hk] at hp
        rcases List.mem_cons.mp hp with rfl | hp
        · simp
        · exact ih p (by rw [h]; exact hp)

theorem groupRuns_cover (key : α → κ) [DecidableEq κ] (l : List α) (x : α)
    (hx : x ∈ l) : ∃ p ∈ groupRuns key l, x ∈ p.2 := by
  rw [← groupRuns_join key l] at hx
  rcases List.mem_join.mp hx with ⟨g, hg, hxg⟩
  rcases List.mem_map.mp hg with ⟨p, hp, rfl⟩
  exact ⟨p, hp, hxg⟩

theorem groupRuns_mem_of_mem (key : α → κ) [DecidableEq κ] (l : List α)
    (p : κ × List α) (hp : p ∈ groupRuns key l) (x : α) (hx : x ∈ p.2) : x ∈ l := by
  rw [← groupRuns_join key l]
  exact List.mem_join.mpr ⟨p.2, List.mem_map.mpr ⟨p, hp, rfl⟩, hx⟩

theorem groupRuns_const (key : α → κ) [DecidableEq κ] (k : κ) :
    ∀ l : List α, l ≠ [] → (∀ x ∈ l, key x = k) → groupRuns key l = [(k, l)]
  | [], h, _ => absurd rfl h
  | a :: l, _, hk => by
    simp only [groupRuns]
    cases l with
    | nil =>
      simp [groupRuns, hk a (List.mem_cons_self _ _)]
    | cons b l' =>
      have ih := groupRuns_const key k (b :: l') (by simp)
        (fun x hx => hk x (List.mem_cons_of_mem _ hx))
      rw [ih, hk a (List.mem_cons_self _ _)]
      simp

theorem groupRuns_keys_ne (key : α → κ) [DecidableEq κ] (le : κ → κ → Bool)
    (hanti : ∀ x y, le x y → le y x → x = y) :
    ∀ l : List α, l.Pairwise (fun x y => le (key x) (key y) = true) →
      (groupRuns key l).Pairwise (fun p q => p.1 ≠ q.1)
  | [], _ => by simp [groupRuns]
  | a :: l, hp => by
    rcases List.pairwise_cons.mp hp with ⟨ha, hl⟩
    have ih := groupRuns_keys_ne key le hanti l hl
    cases h : groupRuns key l with
    | nil => simp [groupRuns, h]
    | cons q out =>
      obtain ⟨k, g⟩ := q
      rw [h] at ih
      simp only [groupRuns, h]
      by_cases hk : key a = k
      · rw [if_pos hk]
        rcases List.pairwise_cons.mp ih with ⟨hk0, hout⟩
        exact List.pairwise_cons.mpr ⟨hk0, hout⟩
      · rw [if_neg hk]
        refine List.pairwise_cons.mpr ⟨?_, ih⟩
        intro q hq
        rcases List.mem_cons.mp hq with rfl | hq
        · exact hk
        · intro heq
          have hqmem : q ∈ groupRuns key l := by
            rw [h]; exact List.mem_cons_of_mem _ hq
          obtain ⟨y, hy⟩ := List.exists_mem_of_ne_nil q.2 (groupRuns_nonempty key l q hqmem)
          have hky : key y = q.1 := groupRuns_key_eq key l q hqmem y hy
          have hgmem : (k, g) ∈ groupRuns key l := by
            rw [h]; exact List.mem_cons_self _ _
          obtain ⟨x0, hx0⟩ :=
            List.exists_mem_of_ne_nil g (groupRuns_nonempty key l (k, g) hgmem)
          have hkx0 : key x0 = k := groupRuns_key_eq key l (k, g) hgmem x0 hx0
          have hjoin := groupRuns_join key l
          rw [h] at hjoin
          have hpl := hl
          rw [← hjoin] at hpl
          simp only [List.map_cons, List.join_cons] at hpl
          rcases List.pairwise_append.mp hpl with ⟨-, -, hcross⟩
          have hyrest : y ∈ (out.map Prod.snd).join :=
            List.mem_join.mpr ⟨q.2, List.mem_map.mpr ⟨q, hq, rfl⟩, hy⟩
          have h1 : le (key x0) (key y) := hcross x0 hx0 y hyrest
          have h2 : le (key a) (key x0) :=
            ha x0 (groupRuns_mem_of_mem key l (k, g) hgmem x0 hx0)
          rw [hky, ← heq] at h1
          exact hk (hkx0 ▸ hanti (key a) (key x0) h2 h1)

theorem pairwise_ne_unique :
    ∀ runs : List (κ × List α), runs.Pairwise (fun p q => p.1 ≠ q.1) →
      ∀ p q, p ∈ runs → q ∈ runs → p.1 = q.1 → p.2 = q.2
  | [], _, p, _, h, _, _ => by simp at h
  | r :: runs, hp, p, q, h1, h2, hk => by
    rcases List.pairwise_cons.mp hp with ⟨hr, hrest⟩
    rcases List.mem_cons.mp h1 with rfl | h1'
    · rcases List.mem_cons.mp h2 with rfl | h2'
      · rfl
      · exact absurd hk (hr q h2')
    · rcases List.mem_cons.mp h2 with rfl | h2'
      · exact absurd hk.symm (hr p h1')
      · exact pairwise_ne_unique runs hrest p q h1' h2' hk

theorem groupRuns_complete (key : α → κ) [DecidableEq κ] (le : κ → κ → Bool)
    (hanti : ∀ x y, le x y → le y x → x = y)
    (l : List α) (hp : l.Pairwise (fun x y => le (key x) (key y) = true))
    (p : κ × List α) (hmem : p ∈ groupRuns key l) (x : α) (hx : x ∈ l)
    (hkey : key x = p.1) : x ∈ p.2 := by
  obtain ⟨q, hq, hxq⟩ := groupRuns_cover key l x hx
  have hqk : key x = q.1 := groupRuns_key_eq key l q hq x hxq
  have hne := groupRuns_keys_ne key le hanti l hp
  have heq : q.2 = p.2 :=
    pairwise_ne_unique _ hne q p hq hmem (by rw [← hqk, hkey])
  rwa [heq] at hxq

/-! Facts about `group_by_unsorted`, lifted from the sort and run lemmas. -/

theorem gbu_key_eq (l : List α) (key : α → κ) (le : κ → κ → Bool) [DecidableEq κ] :
    ∀ p ∈ group_by_unsorted l key le, ∀ x ∈ p.2, key x = p.1 :=
  groupRuns_key_eq key _

theorem gbu_nonempty (l : List α) (key : α → κ) (le : κ → κ → Bool) [DecidableEq κ] :
    ∀ p ∈ group_by_unsorted l key le, p.2 ≠ [] :=
  groupRuns_nonempty key _

theorem gbu_elem_mem (l : List α) (key : α → κ) (le : κ → κ → Bool) [DecidableEq κ]
    (p : κ × List α) (hp : p ∈ group_by_unsorted l key le) (x : α) (hx : x ∈ p.2) :
    x ∈ l :=
  (mem_insertionSort _ x l).mp (groupRuns_mem_of_mem key _ p hp x hx)

theorem gbu_cover (l : List α) (key : α → κ) (le : κ → κ → Bool) [DecidableEq κ]
    (x : α) (hx : x ∈ l) : ∃ p ∈ group_by_unsorted l key le, x ∈ p.2 :=
  groupRuns_cover key _ x ((mem_insertionSort _ x l).mpr hx)

theorem gbu_sorted (l : List α) (key : α → κ) (le : κ → κ → Bool) [DecidableEq κ]
    (htot : ∀ x y : κ, le x y ∨ le y x)
    (htrans : ∀ x y z : κ, le x y → le y z → le x z) :
    (insertionSort (fun x y => le (key x) (key y)) l).Pairwise
      (fun x y => le (key x) (key y) = true) :=
  pairwise_insertionSort _ (fun x y => htot (key x) (key y))
    (fun x y z => htrans (key x) (key y) (key z)) l

theorem gbu_keys_ne (l : List α) (key : α → κ) (le : κ → κ → Bool) [DecidableEq κ]
    (htot : ∀ x y : κ, le x y ∨ le y x)
    (htrans : ∀ x y z : κ, le x y → le y z → le x z)
    (hanti : ∀ x y : κ, le x y → le y x → x = y) :
    (group_by_unsorted l key le).Pairwise (fun p q => p.1 ≠ q.1) :=
  groupRuns_keys_ne key le hanti _ (gbu_sorted l key le htot htrans)

theorem gbu_complete (l : List α) (key : α → κ) (le : κ → κ → Bool) [DecidableEq κ]
    (htot : ∀ x y : κ, le x y ∨ le y x)
    (htrans : ∀ x y z : κ, le x y → le y z → le x z)
    (hanti : ∀ x y : κ, le x y → le y x → x = y)
    (p : κ × List α) (hmem : p ∈ group_by_unsorted l key le) (x : α) (hx : x ∈ l)
    (hkey : key x = p.1) : x ∈ p.2 :=
  groupRuns_complete key le hanti _ (gbu_sorted l key le htot htrans) p hmem x
    ((mem_insertionSort _ x l).mpr hx) hkey

/-! Bit-level facts about the mask builders. -/

theorem testBit_bit_mask_go :
    ∀ (L : List Nat) (a i : Nat),
      (Nat.testBit (L.foldl (fun acc x => acc ||| (1 <<< x)) a) i
        ↔ (Nat.testBit a i ∨ i ∈ L))
  | [], a, i => by simp
  | x :: L, a, i => by
    rw [List.foldl_cons, testBit_bit_mask_go L]
    rw [Nat.testBit_lor, Nat.one_shiftLeft, Nat.testBit_two_pow]
    simp only [Bool.or_eq_true, decide_eq_true_eq, List.mem_cons]
    constructor
    · rintro ((h | rfl) | h)
      · exact Or.inl h
      · exact Or.inr (Or.inl rfl)
      · exact Or.inr (Or.inr h)
    · rintro (h | rfl | h)
      · exact Or.inl (Or.inl h)
      · exact Or.inl (Or.inr rfl)
      · exact Or.inr h

theorem testBit_bit_mask (L : List Nat) (i : Nat) :
    Nat.testBit (bit_mask L) i ↔ i ∈ L := by
  rw [bit_mask, testBit_bit_mask_go]
  simp

theorem bit_mask_lt (L : List Nat) (n : Nat) (h : ∀ x ∈ L, x < n) :
    bit_mask L < 2 ^ n := by
  refine Nat.lt_pow_two_of_testBit _ (fun i hi => Bool.eq_false_iff.mpr (fun hbit => ?_))
  exact absurd (h i ((testBit_bit_mask L i).mp hbit)) (by omega)

theorem shufti_mask_length (v : List Nat) (bit : Nat) :
    (shufti_mask v bit).length = 16 := by
  simp [shufti_mask]

theorem shufti_mask_getD (v : List Nat) (bit i : Nat) (hi : i < 16) :
    (shufti_mask v bit).getD i 0 = if i ∈ v then 2 ^ bit else 0 := by
  rw [List.getD_eq_getElem _ _ (by rw [shufti_mask_length]; exact hi)]
  simp [shufti_mask, Nat.one_shiftLeft]

theorem or_shufti_masks_length (a b : List Nat) :
    (or_shufti_masks a b).length = min a.length b.length := by
  simp [or_shufti_masks]

theorem or_shufti_masks_getD (a b : List Nat) (i : Nat)
    (ha : a.length = 16) (hb : b.length = 16) (hi : i < 16) :
    (or_shufti_masks a b).getD i 0 = a.getD i 0 ||| b.getD i 0 := by
  rw [List.getD_eq_getElem _ _ (by rw [or_shufti_masks_length, ha, hb]; omega),
    List.getD_eq_getElem _ _ (by omega : i < a.length),
    List.getD_eq_getElem _ _ (by omega : i < b.length)]
  simp [or_shufti_masks]

theorem foldl_or_shufti_length :
    ∀ (L : List (List Nat)) (acc : List Nat), acc.length = 16 →
      (∀ m ∈ L, m.length = 16) → (L.foldl or_shufti_masks acc).length = 16
  | [], _, h, _ => h
  | m :: L, acc, h, hm => by
    rw [List.foldl_cons]
    exact foldl_or_shufti_length L _
      (by rw [or_shufti_masks_length, h, hm m (List.mem_cons_self _ _)]; rfl)
      (fun m' hm' => hm m' (List.mem_cons_of_mem _ hm'))

theorem foldl_or_shufti_getD :
    ∀ (L : List (List Nat)) (acc : List Nat) (i : Nat), acc.length = 16 →
      (∀ m ∈ L, m.length = 16) → i < 16 →
      (L.foldl or_shufti_masks acc).getD i 0
        = L.foldl (fun n m => n ||| m.getD i 0) (acc.getD i 0)
  | [], _, _, _, _, _ => rfl
  | m :: L, acc, i, h, hm, hi => by
    rw [List.foldl_cons, List.foldl_cons,
      foldl_or_shufti_getD L _ i
        (by rw [or_shufti_masks_length, h, hm m (List.mem_cons_self _ _)]; rfl)
        (fun m' hm' => hm m' (List.mem_cons_of_mem _ hm')) hi,
      or_shufti_masks_getD acc m i h (hm m (List.mem_cons_self _ _)) hi]

theorem testBit_or_fold {β : Type _} (g : β → Nat) :
    ∀ (L : List β) (a j : Nat),
      (Nat.testBit (L.foldl (fun n m => n ||| g m) a) j
        ↔ Nat.testBit a j ∨ ∃ m ∈ L, Nat.testBit (g m) j)
  | [], a, j => by simp
  | m :: L, a, j => by
    rw [List.foldl_cons, testBit_or_fold g L, Nat.testBit_lor]
    simp only [Bool.or_eq_true, List.mem_cons]
    constructor
    · rintro ((h | h) | ⟨m', hm', h⟩)
      · exact Or.inl h
      · exact Or.inr ⟨m, Or.inl rfl, h⟩
      · exact Or.inr ⟨m', Or.inr hm', h⟩
    · rintro (h | ⟨m', rfl | hm', h⟩)
      · exact Or.inl (Or.inl h)
      · exact Or.inl (Or.inr h)
      · exact Or.inr ⟨m', hm', h⟩

theorem build_nibble_masks_length (l : List (List Nat × List Nat)) (s : Nat) :
    (build_nibble_masks l s).1.length = 16 ∧ (build_nibble_masks l s).2.length = 16 :=
  ⟨foldl_or_shufti_length _ _ (by simp) (by
      intro m hm
      rcases List.mem_map.mp hm with ⟨p, -, rfl⟩
      exact shufti_mask_length _ _),
    foldl_or_shufti_length _ _ (by simp) (by
      intro m hm
      rcases List.mem_map.mp hm with ⟨p, -, rfl⟩
      exact shufti_mask_length _ _)⟩

theorem testBit_build_nibble_high (l : List (List Nat × List Nat)) (s h j : Nat)
    (hh : h < 16) :
    (Nat.testBit ((build_nibble_masks l s).1.getD h 0) j
      ↔ ∃ k, k < l.length ∧ j = s + k ∧ h ∈ (l.getD k ([], [])).1) := by
  rw [build_nibble_masks]
  rw [foldl_or_shufti_getD _ _ h (by simp)
    (by
      intro m hm
      rcases List.mem_map.mp hm with ⟨p, -, rfl⟩
      exact shufti_mask_length _ _) hh]
  refine (testBit_or_fold (fun m : List Nat => m.getD h 0) _ _ j).trans ?_
  simp only [List.getD_eq_getElem _ _
      (by simpa using hh : h < (List.replicate 16 (0 : Nat)).length),
    List.getElem_replicate, Nat.zero_testBit, Bool.false_eq_true, false_or]
  constructor
  · rintro ⟨m, hm, hbit⟩
    rcases List.mem_map.mp hm with ⟨p, hp, rfl⟩
    rw [shufti_mask_getD _ _ _ hh] at hbit
    by_cases hmem : h ∈ p.2.1
    · rw [if_pos hmem, Nat.testBit_two_pow] at hbit
      have hj : s + p.1 = j := decide_eq_true_eq.mp hbit
      have hpl := List.mem_enum_iff_getElem?.mp hp
      rcases List.getElem?_eq_some.mp hpl with ⟨hlt, hget⟩
      refine ⟨p.1, hlt, hj.symm, ?_⟩
      rw [List.getD_eq_getElem _ _ hlt, hget]
      exact hmem
    · rw [if_neg hmem] at hbit
      simp at hbit
  · rintro ⟨k, hk, rfl, hmem⟩
    refine ⟨shufti_mask (l.getD k ([], [])).1 (s + k), ?_, ?_⟩
    · refine List.mem_map.mpr ⟨(k, l.getD k ([], [])), ?_, rfl⟩
      refine List.mem_enum_iff_getElem?.mpr ?_
      rw [List.getD_eq_getElem _ _ hk]
      exact List.getElem?_eq_getElem hk
    · rw [shufti_mask_getD _ _ _ hh, if_pos hmem, Nat.testBit_two_pow]
      simp

theorem testBit_build_nibble_low (l : List (List Nat × List Nat)) (s h j : Nat)
    (hh : h < 16) :
    (Nat.testBit ((build_nibble_masks l s).2.getD h 0) j
      ↔ ∃ k, k < l.length ∧ j = s + k ∧ h ∈ (l.getD k ([], [])).2) := by
  rw [build_nibble_masks]
  rw [foldl_or_shufti_getD _ _ h (by simp)
    (by
      intro m hm
      rcases List.mem_map.mp hm with ⟨p, -, rfl⟩
      exact shufti_mask_length _ _) hh]
  refine (testBit_or_fold (fun m : List Nat => m.getD h 0) _ _ j).trans ?_
  simp only [List.getD_eq_getElem _ _
      (by simpa using hh : h < (List.replicate 16 (0 : Nat)).length),
    List.getElem_replicate, Nat.zero_testBit, Bool.false_eq_true, false_or]
  constructor
  · rintro ⟨m, hm, hbit⟩
    rcases List.mem_map.mp hm with ⟨p, hp, rfl⟩
    rw [shufti_mask_getD _ _ _ hh] at hbit
    by_cases hmem : h ∈ p.2.2
    · rw [if_pos hmem, Nat.testBit_two_pow] at hbit
      have hj : s + p.1 = j := decide_eq_true_eq.mp hbit
      have hpl := List.mem_enum_iff_getElem?.mp hp
      rcases List.getElem?_eq_some.mp hpl with ⟨hlt, hget⟩
      refine ⟨p.1, hlt, hj.symm, ?_⟩
      rw [List.getD_eq_getElem _ _ hlt, hget]
      exact hmem
    · rw [if_neg hmem] at hbit
      simp at hbit
  · rintro ⟨k, hk, rfl, hmem⟩
    refine ⟨shufti_mask (l.getD k ([], [])).2 (s + k), ?_, ?_⟩
    · refine List.mem_map.mpr ⟨(k, l.getD k ([], [])), ?_, rfl⟩
      refine List.mem_enum_iff_getElem?.mpr ?_
      rw [List.getD_eq_getElem _ _ hk]
      exact List.getElem?_eq_getElem hk
    · rw [shufti_mask_getD _ _ _ hh, if_pos hmem, Nat.testBit_two_pow]
      simp

theorem build_nibble_high_lt (l : List (List Nat × List Nat)) (s n : Nat)
    (hn : l.length = n) (x : Nat) (hx : x ∈ (build_nibble_masks l s).1) :
    x < 2 ^ (s + n) := by
  refine Nat.lt_pow_two_of_testBit _ (fun i hi => Bool.eq_false_iff.mpr (fun hbit => ?_))
  rcases List.mem_iff_getElem.mp hx with ⟨h, hlen, rfl⟩
  have h16 : h < 16 := by
    rw [(build_nibble_masks_length l s).1] at hlen
    exact hlen
  rw [← List.getD_eq_getElem _ 0 hlen] at hbit
  rcases (testBit_build_nibble_high l s h i h16).mp hbit with ⟨k, hk, rfl, -⟩
  omega

theorem build_nibble_low_lt (l : List (List Nat × List Nat)) (s n : Nat)
    (hn : l.length = n) (x : Nat) (hx : x ∈ (build_nibble_masks l s).2) :
    x < 2 ^ (s + n) := by
  refine Nat.lt_pow_two_of_testBit _ (fun i hi => Bool.eq_false_iff.mpr (fun hbit => ?_))
  rcases List.mem_iff_getElem.mp hx with ⟨h, hlen, rfl⟩
  have h16 : h < 16 := by
    rw [(build_nibble_masks_length l s).2] at hlen
    exact hlen
  rw [← List.getD_eq_getElem _ 0 hlen] at hbit
  rcases (testBit_build_nibble_low l s h i h16).mp hbit with ⟨k, hk, rfl, -⟩
  omega

/-! Arithmetic of the high/low nibble decomposition. -/

theorem high_lt_16 (o : Nat) (ho : o < 256) : o >>> 4 < 16 := by
  rw [Nat.shiftRight_eq_div_pow]
  omega

theorem low_lt_16 (o : Nat) : o &&& 15 < 16 :=
  Nat.lt_succ_of_le Nat.and_le_right

theorem nibble_recompose (o : Nat) : ((o >>> 4) <<< 4) ||| (o &&& 15) = o := by
  apply Nat.eq_of_testBit_eq
  intro i
  rw [Nat.testBit_lor, Nat.testBit_shiftLeft, Nat.testBit_shiftRight, Nat.testBit_land,
    show (15 : Nat) = 2 ^ 4 - 1 by norm_num, Nat.testBit_two_pow_sub_one]
  by_cases h : 4 ≤ i
  · have h4 : 4 + (i - 4) = i := by omega
    rw [h4]
    simp [h, Nat.not_lt.mpr h]
  · simp [h, Nat.lt_of_not_le h]

theorem combine_shiftRight (h l : Nat) (hl : l < 16) : ((h <<< 4) ||| l) >>> 4 = h := by
  apply Nat.eq_of_testBit_eq
  intro i
  rw [Nat.testBit_shiftRight, Nat.testBit_lor, Nat.testBit_shiftLeft]
  have hlt : l.testBit (4 + i) = false :=
    Nat.testBit_lt_two_pow (lt_of_lt_of_le hl
      (by calc (16 : Nat) = 2 ^ 4 := by norm_num
            _ ≤ 2 ^ (4 + i) := Nat.pow_le_pow_right (by norm_num) (by omega)))
  have h4 : 4 + i - 4 = i := by omega
  simp [hlt, h4]

theorem combine_and (h l : Nat) (hl : l < 16) : ((h <<< 4) ||| l) &&& 15 = l := by
  apply Nat.eq_of_testBit_eq
  intro i
  rw [Nat.testBit_land, Nat.testBit_lor, Nat.testBit_shiftLeft,
    show (15 : Nat) = 2 ^ 4 - 1 by norm_num, Nat.testBit_two_pow_sub_one]
  by_cases hi : i < 4
  · simp [hi, Nat.not_le.mpr hi]
  · have : l.testBit i = false :=
      Nat.testBit_lt_two_pow (lt_of_lt_of_le hl
        (by calc (16 : Nat) = 2 ^ 4 := by norm_num
              _ ≤ 2 ^ i := Nat.pow_le_pow_right (by norm_num) (by omega)))
    simp [hi, this]

theorem combine_lt (h l : Nat) (hh : h < 16) (hl : l < 16) : (h <<< 4) ||| l < 256 := by
  have h1 : h <<< 4 < 256 := by
    rw [Nat.shiftLeft_eq]
    omega
  have h2 : (h <<< 4) ||| l < 2 ^ 8 :=
    Nat.or_lt_two_pow (by simpa using h1) (by omega)
  simpa using h2

theorem bit_test_eq_testBit (x i : Nat) : bit_test x i = Nat.testBit x i := by
  rw [bit_test, Nat.one_shiftLeft, Nat.and_two_pow]
  cases hb : Nat.testBit x i <;> simp [Nat.pow_eq_zero]

/-! Membership structure of the per-category nibble groups. -/

theorem hmask1_fst_singleton (cat : List Nat) (q : List Nat × List Nat)
    (hq : q ∈ hmask1 cat) : q.1 = [q.1.headD 0] := by
  rcases List.mem_map.mp hq with ⟨p, -, rfl⟩
  rfl

theorem lmask1_snd_singleton (cat : List Nat) (q : List Nat × List Nat)
    (hq : q ∈ lmask1 cat) : q.2 = [q.2.headD 0] := by
  rcases List.mem_map.mp hq with ⟨p, -, rfl⟩
  rfl

theorem hmask1_mem_iff (cat : List Nat) (h l : Nat) :
    (∃ q ∈ hmask1 cat, h ∈ q.1 ∧ l ∈ q.2)
      ↔ ∃ it ∈ cat_items cat, it.high = h ∧ it.low = l := by
  constructor
  · rintro ⟨q, hq, hh, hl⟩
    rcases List.mem_map.mp hq with ⟨p, hp, rfl⟩
    simp only [List.mem_singleton] at hh
    rcases List.mem_map.mp hl with ⟨it, hit, rfl⟩
    refine ⟨it, gbu_elem_mem _ _ _ p hp it hit, ?_, rfl⟩
    rw [gbu_key_eq _ _ _ p hp it hit, hh]
  · rintro ⟨it, hit, rfl, rfl⟩
    rcases gbu_cover (cat_items cat) Item.high (fun a b => decide (a ≤ b)) it hit
      with ⟨p, hp, hitp⟩
    refine ⟨([p.1], p.2.map Item.low), List.mem_map.mpr ⟨p, hp, rfl⟩, ?_, ?_⟩
    · simp [gbu_key_eq _ _ _ p hp it hitp]
    · exact List.mem_map.mpr ⟨it, hitp, rfl⟩

theorem lmask1_mem_iff (cat : List Nat) (h l : Nat) :
    (∃ q ∈ lmask1 cat, h ∈ q.1 ∧ l ∈ q.2)
      ↔ ∃ it ∈ cat_items cat, it.high = h ∧ it.low = l := by
  constructor
  · rintro ⟨q, hq, hh, hl⟩
    rcases List.mem_map.mp hq with ⟨p, hp, rfl⟩
    simp only [List.mem_singleton] at hl
    rcases List.mem_map.mp hh with ⟨it, hit, rfl⟩
    refine ⟨it, gbu_elem_mem _ _ _ p hp it hit, rfl, ?_⟩
    rw [gbu_key_eq _ _ _ p hp it hit, hl]
  · rintro ⟨it, hit, rfl, rfl⟩
    rcases gbu_cover (cat_items cat) Item.low (fun a b => decide (a ≤ b)) it hit
      with ⟨p, hp, hitp⟩
    refine ⟨(p.2.map Item.high, [p.1]), List.mem_map.mpr ⟨p, hp, rfl⟩, ?_, ?_⟩
    · exact List.mem_map.mpr ⟨it, hitp, rfl⟩
    · simp [gbu_key_eq _ _ _ p hp it hitp]

theorem hmask2_mem_iff (cat : List Nat) (h l : Nat) :
    (∃ g ∈ hmask2 cat, h ∈ g.1 ∧ l ∈ g.2)
      ↔ (∃ q ∈ hmask1 cat, h ∈ q.1 ∧ l ∈ q.2) := by
  constructor
  · rintro ⟨g, hg, hh, hl⟩
    rcases List.mem_map.mp hg with ⟨p, hp, rfl⟩
    rcases List.mem_map.mp hh with ⟨q, hqp, rfl⟩
    have hq1 : q ∈ hmask1 cat := gbu_elem_mem _ Prod.snd listLeB p hp q hqp
    refine ⟨q, hq1, ?_, ?_⟩
    · rw [hmask1_fst_singleton cat q hq1]
      exact List.mem_singleton.mpr rfl
    · rw [gbu_key_eq _ Prod.snd listLeB p hp q hqp]
      exact hl
  · rintro ⟨q, hq, hh, hl⟩
    rcases gbu_cover (hmask1 cat) Prod.snd listLeB q hq with ⟨p, hp, hqp⟩
    refine ⟨(p.2.map (fun r => r.1.headD 0), p.1),
      List.mem_map.mpr ⟨p, hp, rfl⟩, ?_, ?_⟩
    · refine List.mem_map.mpr ⟨q, hqp, ?_⟩
      rw [hmask1_fst_singleton cat q hq] at hh
      exact (List.mem_singleton.mp hh).symm
    · rw [← gbu_key_eq _ Prod.snd listLeB p hp q hqp]
      exact hl

theorem lmask2_mem_iff (cat : List Nat) (h l : Nat) :
    (∃ g ∈ lmask2 cat, h ∈ g.1 ∧ l ∈ g.2)
      ↔ (∃ q ∈ lmask1 cat, h ∈ q.1 ∧ l ∈ q.2) := by
  constructor
  · rintro ⟨g, hg, hh, hl⟩
    rcases List.mem_map.mp hg with ⟨p, hp, rfl⟩
    rcases List.mem_map.mp hl with ⟨q, hqp, rfl⟩
    have hq1 : q ∈ lmask1 cat := gbu_elem_mem _ Prod.fst listLeB p hp q hqp
    refine ⟨q, hq1, ?_, ?_⟩
    · rw [gbu_key_eq _ Prod.fst listLeB p hp q hqp]
      exact hh
    · rw [lmask1_snd_singleton cat q hq1]
      exact List.mem_singleton.mpr rfl
  · rintro ⟨q, hq, hh, hl⟩
    rcases gbu_cover (lmask1 cat) Prod.fst listLeB q hq with ⟨p, hp, hqp⟩
    refine ⟨(p.1, p.2.map (fun r => r.2.headD 0)),
      List.mem_map.mpr ⟨p, hp, rfl⟩, ?_, ?_⟩
    · rw [← gbu_key_eq _ Prod.fst listLeB p hp q hqp]
      exact hh
    · refine List.mem_map.mpr ⟨q, hqp, ?_⟩
      rw [lmask1_snd_singleton cat q hq] at hl
      exact (List.mem_singleton.mp hl).symm

theorem cat_groups_mem_iff (cat : List Nat) (h l : Nat) :
    (∃ g ∈ cat_groups cat, h ∈ g.1 ∧ l ∈ g.2)
      ↔ ∃ it ∈ cat_items cat, it.high = h ∧ it.low = l := by
  rw [cat_groups]
  by_cases hc : (hmask2 cat).length < (lmask2 cat).length
  · rw [if_pos hc, hmask2_mem_iff, hmask1_mem_iff]
  · rw [if_neg hc, lmask2_mem_iff, lmask1_mem_iff]

theorem hmask2_parts_nonempty (cat : List Nat) (g : List Nat × List Nat)
    (hg : g ∈ hmask2 cat) : g.1 ≠ [] ∧ g.2 ≠ [] := by
  rcases List.mem_map.mp hg with ⟨p, hp, rfl⟩
  have hpne := gbu_nonempty _ Prod.snd listLeB p hp
  constructor
  · simpa using hpne
  · obtain ⟨q, hq⟩ := List.exists_mem_of_ne_nil _ hpne
    have hq1 : q ∈ hmask1 cat := gbu_elem_mem _ Prod.snd listLeB p hp q hq
    rcases List.mem_map.mp hq1 with ⟨r, hr, rfl⟩
    have hkey : ([r.1], r.2.map Item.low).2 = p.1 :=
      gbu_key_eq _ Prod.snd listLeB p hp _ hq
    have hrne := gbu_nonempty _ Item.high (fun a b => decide (a ≤ b)) r hr
    show p.1 ≠ []
    rw [← hkey]
    simpa using hrne

theorem lmask2_parts_nonempty (cat : List Nat) (g : List Nat × List Nat)
    (hg : g ∈ lmask2 cat) : g.1 ≠ [] ∧ g.2 ≠ [] := by
  rcases List.mem_map.mp hg with ⟨p, hp, rfl⟩
  have hpne := gbu_nonempty _ Prod.fst listLeB p hp
  refine ⟨?_, by simpa using hpne⟩
  obtain ⟨q, hq⟩ := List.exists_mem_of_ne_nil _ hpne
  have hq1 : q ∈ lmask1 cat := gbu_elem_mem _ Prod.fst listLeB p hp q hq
  rcases List.mem_map.mp hq1 with ⟨r, hr, rfl⟩
  have hkey : (r.2.map Item.high, [r.1]).1 = p.1 :=
    gbu_key_eq _ Prod.fst listLeB p hp _ hq
  have hrne := gbu_nonempty _ Item.low (fun a b => decide (a ≤ b)) r hr
  show p.1 ≠ []
  rw [← hkey]
  simpa using hrne

theorem cat_groups_parts_nonempty (cat : List Nat) (g : List Nat × List Nat)
    (hg : g ∈ cat_groups cat) : g.1 ≠ [] ∧ g.2 ≠ [] := by
  rw [cat_groups] at hg
  by_cases hc : (hmask2 cat).length < (lmask2 cat).length
  · rw [if_pos hc] at hg
    exact hmask2_parts_nonempty cat g hg
  · rw [if_neg hc] at hg
    exact lmask2_parts_nonempty cat g hg

theorem cat_items_bounds (cat : List Nat) (hmem : ∀ o ∈ cat, o < 256)
    (it : Item) (hit : it ∈ cat_items cat) : it.high < 16 ∧ it.low < 16 := by
  rcases List.mem_map.mp hit with ⟨o, ho, rfl⟩
  exact ⟨high_lt_16 o (hmem o ho), low_lt_16 o⟩

theorem cat_groups_bounds (cat : List Nat) (hmem : ∀ o ∈ cat, o < 256)
    (g : List Nat × List Nat) (hg : g ∈ cat_groups cat) :
    (∀ h ∈ g.1, h < 16) ∧ (∀ l ∈ g.2, l < 16) := by
  obtain ⟨h1ne, h2ne⟩ := cat_groups_parts_nonempty cat g hg
  constructor
  · intro h hh
    obtain ⟨l, hl⟩ := List.exists_mem_of_ne_nil _ h2ne
    rcases (cat_groups_mem_iff cat h l).mp ⟨g, hg, hh, hl⟩ with ⟨it, hit, rfl, -⟩
    exact (cat_items_bounds cat hmem it hit).1
  · intro l hl
    obtain ⟨h, hh⟩ := List.exists_mem_of_ne_nil _ h1ne
    rcases (cat_groups_mem_iff cat h l).mp ⟨g, hg, hh, hl⟩ with ⟨it, hit, -, rfl⟩
    exact (cat_items_bounds cat hmem it hit).2

/-- Exactness of one category's chosen nibble groups: the union of the
cartesian products of the groups reassembles exactly the category's member
set.  This is the heart of the compiler's correctness. -/
theorem cat_groups_exact (cat : List Nat) (hmem : ∀ o ∈ cat, o < 256) (b : Nat) :
    (∃ g ∈ cat_groups cat, ∃ h, ∃ l, h ∈ g.1 ∧ l ∈ g.2 ∧ b = (h <<< 4) ||| l)
      ↔ b ∈ cat := by
  constructor
  · rintro ⟨g, hg, h, l, hh, hl, rfl⟩
    rcases (cat_groups_mem_iff cat h l).mp ⟨g, hg, hh, hl⟩ with ⟨it, hit, rfl, rfl⟩
    rcases List.mem_map.mp hit with ⟨o, ho, rfl⟩
    show ((o >>> 4) <<< 4) ||| (o &&& 0x0f) ∈ cat
    rw [nibble_recompose]
    exact ho
  · intro hb
    have hit : Item.mk b (b >>> 4) (b &&& 0x0f) ∈ cat_items cat :=
      List.mem_map.mpr ⟨b, hb, rfl⟩
    rcases (cat_groups_mem_iff cat (b >>> 4) (b &&& 0x0f)).mpr ⟨_, hit, rfl, rfl⟩
      with ⟨g, hg, hh, hl⟩
    exact ⟨g, hg, _, _, hh, hl, (nibble_recompose b).symm⟩

/-! Invariants of the compiler loop. -/

theorem or_shufti_masks_mem_lt (a b : List Nat) (n : Nat)
    (ha : ∀ x ∈ a, x < 2 ^ n) (hb : ∀ x ∈ b, x < 2 ^ n) :
    ∀ x ∈ or_shufti_masks a b, x < 2 ^ n := by
  intro x hx
  rw [or_shufti_masks] at hx
  rcases List.mem_iff_getElem.mp hx with ⟨i, hi, rfl⟩
  rw [List.getElem_zipWith]
  have hia : i < a.length := by
    rw [List.length_zipWith] at hi
    omega
  have hib : i < b.length := by
    rw [List.length_zipWith] at hi
    omega
  exact Nat.or_lt_two_pow (ha _ (List.getElem_mem hia)) (hb _ (List.getElem_mem hib))

theorem pow_le_pow_two {m n : Nat} (h : m ≤ n) : (2 : Nat) ^ m ≤ 2 ^ n :=
  Nat.pow_le_pow_right (by norm_num) h

theorem go_bounds :
    ∀ (cats : List (List Nat)) (hm lm cms : List Nat) (s : Nat)
      (ms HM LM : List Nat),
      hm.length = 16 → lm.length = 16 → s ≤ 7 →
      (∀ x ∈ hm, x < 2 ^ s) → (∀ x ∈ lm, x < 2 ^ s) → (∀ x ∈ cms, x < 2 ^ 7) →
      build_shufti_masks_go cats hm lm cms s = some (ms, HM, LM) →
      HM.length = 16 ∧ LM.length = 16
        ∧ ms.length = cms.length + cats.length
        ∧ (∀ j, j < cms.length → ms.getD j 0 = cms.getD j 0)
        ∧ (∀ x ∈ HM, x < 2 ^ 7) ∧ (∀ x ∈ LM, x < 2 ^ 7) ∧ (∀ x ∈ ms, x < 2 ^ 7)
        ∧ (∀ h i, h < 16 → i < s →
            Nat.testBit (HM.getD h 0) i = Nat.testBit (hm.getD h 0) i
              ∧ Nat.testBit (LM.getD h 0) i = Nat.testBit (lm.getD h 0) i)
  | [], hm, lm, cms, s, ms, HM, LM => by
    intro h16h h16l hs hbh hbl hbc hres
    simp only [build_shufti_masks_go, Option.some.injEq, Prod.mk.injEq] at hres
    obtain ⟨rfl, rfl, rfl⟩ := hres
    refine ⟨h16h, h16l, by simp, fun j _ => rfl, ?_, ?_, hbc, fun h i _ _ => ⟨rfl, rfl⟩⟩
    · exact fun x hx => lt_of_lt_of_le (hbh x hx) (pow_le_pow_two hs)
    · exact fun x hx => lt_of_lt_of_le (hbl x hx) (pow_le_pow_two hs)
  | cat :: rest, hm, lm, cms, s, ms, HM, LM => by
    intro h16h h16l hs hbh hbl hbc hres
    simp only [build_shufti_masks_go] at hres
    by_cases hcap : 8 ≤ s + (cat_groups cat).length
    · rw [if_pos hcap] at hres
      exact absurd hres (by simp)
    · rw [if_neg hcap] at hres
      have hn : s + (cat_groups cat).length ≤ 7 := by omega
      have hlenC := build_nibble_masks_length (cat_groups cat) s
      have h16h' : (or_shufti_masks hm (build_nibble_masks (cat_groups cat) s).1).length = 16 := by
        rw [or_shufti_masks_length, h16h, hlenC.1]
        rfl
      have h16l' : (or_shufti_masks lm (build_nibble_masks (cat_groups cat) s).2).length = 16 := by
        rw [or_shufti_masks_length, h16l, hlenC.2]
        rfl
      have hbh' : ∀ x ∈ or_shufti_masks hm (build_nibble_masks (cat_groups cat) s).1,
          x < 2 ^ (s + (cat_groups cat).length) := by
        refine or_shufti_masks_mem_lt _ _ _ ?_ ?_
        · exact fun x hx => lt_of_lt_of_le (hbh x hx) (pow_le_pow_two (by omega))
        · exact fun x hx => build_nibble_high_lt (cat_groups cat) s _ rfl x hx
      have hbl' : ∀ x ∈ or_shufti_masks lm (build_nibble_masks (cat_groups cat) s).2,
          x < 2 ^ (s + (cat_groups cat).length) := by
        refine or_shufti_masks_mem_lt _ _ _ ?_ ?_
        · exact fun x hx => lt_of_lt_of_le (hbl x hx) (pow_le_pow_two (by omega))
        · exact fun x hx => build_nibble_low_lt (cat_groups cat) s _ rfl x hx
      have hbc' : ∀ x ∈ cms ++ [bit_mask (List.range' s (cat_groups cat).length)],
          x < 2 ^ 7 := by
        intro x hx
        rcases List.mem_append.mp hx with hx | hx
        · exact hbc x hx
        · rcases List.mem_singleton.mp hx with rfl
          refine bit_mask_lt _ 7 (fun y hy => ?_)
          rcases List.mem_range'.mp hy with ⟨i, hi, rfl⟩
          omega
      have IH := go_bounds rest _ _ _ (s + (cat_groups cat).length) ms HM LM
        h16h' h16l' hn hbh' hbl' hbc' hres
      obtain ⟨c1, c2, c3, c4, c5, c6, c7, c8⟩ := IH
      refine ⟨c1, c2, ?_, ?_, c5, c6, c7, ?_⟩
      · rw [c3]
        simp
        omega
      · intro j hj
        rw [c4 j (by simp; omega), List.getD_append _ _ _ _ hj]
      · intro h i hh hi
        have hIH := c8 h i hh (by omega)
        constructor
        · rw [hIH.1, or_shufti_masks_getD hm _ h h16h hlenC.1 hh, Nat.testBit_lor]
          have hzero :
              Nat.testBit ((build_nibble_masks (cat_groups cat) s).1.getD h 0) i
                = false := by
            rw [Bool.eq_false_iff]
            intro hbit
            rcases (testBit_build_nibble_high _ s h i hh).mp hbit with ⟨k, -, rfl, -⟩
            omega
          rw [hzero, Bool.or_false]
        · rw [hIH.2, or_shufti_masks_getD lm _ h h16l hlenC.2 hh, Nat.testBit_lor]
          have hzero :
              Nat.testBit ((build_nibble_masks (cat_groups cat) s).2.getD h 0) i
                = false := by
            rw [Bool.eq_false_iff]
            intro hbit
            rcases (testBit_build_nibble_low _ s h i hh).mp hbit with ⟨k, -, rfl, -⟩
            omega
          rw [hzero, Bool.or_false]

/-- Per-category correctness of the compiler loop: a byte is a member of the
`j`-th remaining category exactly when some classification bit of that
category's mask is set in both final tables at some nibble pair recombining
to the byte. -/
theorem go_correct :
    ∀ (cats : List (List Nat)) (hm lm cms : List Nat) (s : Nat)
      (ms HM LM : List Nat),
      hm.length = 16 → lm.length = 16 → s ≤ 7 →
      (∀ x ∈ hm, x < 2 ^ s) → (∀ x ∈ lm, x < 2 ^ s) → (∀ x ∈ cms, x < 2 ^ 7) →
      (∀ cat ∈ cats, ∀ o ∈ cat, o < 256) →
      build_shufti_masks_go cats hm lm cms s = some (ms, HM, LM) →
      ∀ j, j < cats.length → ∀ b,
        (b ∈ cats.getD j [] ↔ ∃ i, i < 8 ∧ Nat.testBit (ms.getD (cms.length + j) 0) i
          ∧ ∃ h l, h < 16 ∧ l < 16 ∧ Nat.testBit (HM.getD h 0) i
            ∧ Nat.testBit (LM.getD l 0) i ∧ b = (h <<< 4) ||| l)
  | [], _, _, _, _, _, _, _ => by
    intro _ _ _ _ _ _ _ _ j hj
    simp at hj
  | cat :: rest, hm, lm, cms, s, ms, HM, LM => by
    intro h16h h16l hs hbh hbl hbc hmem hres
    simp only [build_shufti_masks_go] at hres
    by_cases hcap : 8 ≤ s + (cat_groups cat).length
    · rw [if_pos hcap] at hres
      exact absurd hres (by simp)
    rw [if_neg hcap] at hres
    have hn : s + (cat_groups cat).length ≤ 7 := by omega
    have hlenC := build_nibble_masks_length (cat_groups cat) s
    have h16h' : (or_shufti_masks hm (build_nibble_masks (cat_groups cat) s).1).length = 16 := by
      rw [or_shufti_masks_length, h16h, hlenC.1]
      rfl
    have h16l' : (or_shufti_masks lm (build_nibble_masks (cat_groups cat) s).2).length = 16 := by
      rw [or_shufti_masks_length, h16l, hlenC.2]
      rfl
    have hbh' : ∀ x ∈ or_shufti_masks hm (build_nibble_masks (cat_groups cat) s).1,
        x < 2 ^ (s + (cat_groups cat).length) := by
      refine or_shufti_masks_mem_lt _ _ _ ?_ ?_
      · exact fun x hx => lt_of_lt_of_le (hbh x hx) (pow_le_pow_two (by omega))
      · exact fun x hx => build_nibble_high_lt (cat_groups cat) s _ rfl x hx
    have hbl' : ∀ x ∈ or_shufti_masks lm (build_nibble_masks (cat_groups cat) s).2,
        x < 2 ^ (s + (cat_groups cat).length) := by
      refine or_shufti_masks_mem_lt _ _ _ ?_ ?_
      · exact fun x hx => lt_of_lt_of_le (hbl x hx) (pow_le_pow_two (by omega))
      · exact fun x hx => build_nibble_low_lt (cat_groups cat) s _ rfl x hx
    have hbc' : ∀ x ∈ cms ++ [bit_mask (List.range' s (cat_groups cat).length)],
        x < 2 ^ 7 := by
      intro x hx
      rcases List.mem_append.mp hx with hx | hx
      · exact hbc x hx
      · rcases List.mem_singleton.mp hx with rfl
        refine bit_mask_lt _ 7 (fun y hy => ?_)
        rcases List.mem_range'.mp hy with ⟨i, hi, rfl⟩
        omega
    obtain ⟨c1, c2, c3, c4, c5, c6, c7, c8⟩ :=
      go_bounds rest _ _ _ (s + (cat_groups cat).length) ms HM LM
        h16h' h16l' hn hbh' hbl' hbc' hres
    intro j hj b
    cases j with
    | zero =>
      have hmsk : ms.getD (cms.length + 0) 0
          = bit_mask (List.range' s (cat_groups cat).length) := by
        rw [Nat.add_zero, c4 cms.length (by simp)]
        simp
      have hHMbit : ∀ h i, h < 16 → s ≤ i → i < s + (cat_groups cat).length →
          (Nat.testBit (HM.getD h 0) i ↔
            ∃ k, k < (cat_groups cat).length ∧ i = s + k
              ∧ h ∈ ((cat_groups cat).getD k ([], [])).1) := by
        intro h i hh hsi hin
        rw [(c8 h i hh hin).1, or_shufti_masks_getD hm _ h h16h hlenC.1 hh,
          Nat.testBit_lor]
        have hmz : Nat.testBit (hm.getD h 0) i = false := by
          refine Nat.testBit_lt_two_pow ?_
          refine lt_of_lt_of_le (hbh _ ?_) (pow_le_pow_two hsi)
          rw [List.getD_eq_getElem _ _ (by omega : h < hm.length)]
          exact List.getElem_mem _
        rw [hmz, Bool.false_or]
        exact testBit_build_nibble_high _ s h i hh
      have hLMbit : ∀ l i, l < 16 → s ≤ i → i < s + (cat_groups cat).length →
          (Nat.testBit (LM.getD l 0) i ↔
            ∃ k, k < (cat_groups cat).length ∧ i = s + k
              ∧ l ∈ ((cat_groups cat).getD k ([], [])).2) := by
        intro l i hl hsi hin
        rw [(c8 l i hl hin).2, or_shufti_masks_getD lm _ l h16l hlenC.2 hl,
          Nat.testBit_lor]
        have hmz : Nat.testBit (lm.getD l 0) i = false := by
          refine Nat.testBit_lt_two_pow ?_
          refine lt_of_lt_of_le (hbl _ ?_) (pow_le_pow_two hsi)
          rw [List.getD_eq_getElem _ _ (by omega : l < lm.length)]
          exact List.getElem_mem _
        rw [hmz, Bool.false_or]
        exact testBit_build_nibble_low _ s l i hl
      have hmemcat := hmem cat (List.mem_cons_self _ _)
      constructor
      · intro hb
        rcases (cat_groups_exact cat hmemcat b).mpr hb with ⟨g, hg, h, l, hh, hl, hcomb⟩
        rcases List.mem_iff_getElem.mp hg with ⟨k, hk, hgk⟩
        have hbound := cat_groups_bounds cat hmemcat g hg
        refine ⟨s + k, by omega, ?_, h, l, hbound.1 h hh, hbound.2 l hl, ?_, ?_, hcomb⟩
        · rw [hmsk, testBit_bit_mask]
          exact List.mem_range'.mpr ⟨k, hk, by omega⟩
        · rw [hHMbit h (s + k) (hbound.1 h hh) (by omega) (by omega)]
          refine ⟨k, hk, rfl, ?_⟩
          rw [List.getD_eq_getElem _ _ hk, hgk]
          exact hh
        · rw [hLMbit l (s + k) (hbound.2 l hl) (by omega) (by omega)]
          refine ⟨k, hk, rfl, ?_⟩
          rw [List.getD_eq_getElem _ _ hk, hgk]
          exact hl
      · rintro ⟨i, hi8, hmbit, h, l, hh16, hl16, hHM, hLM, hcomb⟩
        rw [hmsk, testBit_bit_mask] at hmbit
        rcases List.mem_range'.mp hmbit with ⟨k, hk, hik⟩
        have hik' : i = s + k := by omega
        rcases (hHMbit h i hh16 (by omega) (by omega)).mp hHM with ⟨k1, hk1, he1, hmem1⟩
        rcases (hLMbit l i hl16 (by omega) (by omega)).mp hLM with ⟨k2, hk2, he2, hmem2⟩
        have hkk : k2 = k1 := by omega
        subst hkk
        refine (cat_groups_exact cat hmemcat b).mp
          ⟨(cat_groups cat).getD k2 ([], []), ?_, h, l, hmem1, hmem2, hcomb⟩
        rw [List.getD_eq_getElem _ _ hk1]
        exact List.getElem_mem _
    | succ j' =>
      have hidx : cms.length + (j' + 1)
          = (cms ++ [bit_mask (List.range' s (cat_groups cat).length)]).length + j' := by
        simp
        omega
      rw [List.getD_cons_succ, hidx]
      exact go_correct rest _ _ _ (s + (cat_groups cat).length) ms HM LM
        h16h' h16l' hn hbh' hbl' hbc'
        (fun c hc => hmem c (List.mem_cons_of_mem _ hc)) hres j'
        (by simpa using Nat.lt_of_succ_lt_succ hj) b

/-! Success/failure characterization of the compiler. -/

theorem go_isSome_iff :
    ∀ (cats : List (List Nat)) (hm lm cms : List Nat) (s : Nat), s ≤ 7 →
      ((build_shufti_masks_go cats hm lm cms s).isSome
        ↔ s + (cats.map (fun c => (cat_groups c).length)).sum ≤ 7)
  | [], _, _, _, s => by
    intro hs
    simp [build_shufti_masks_go, hs]
  | cat :: rest, hm, lm, cms, s => by
    intro hs
    simp only [build_shufti_masks_go, List.map_cons, List.sum_cons]
    by_cases hcap : 8 ≤ s + (cat_groups cat).length
    · rw [if_pos hcap]
      simp only [Option.isSome_none, Bool.false_eq_true, false_iff]
      omega
    · rw [if_neg hcap]
      rw [go_isSome_iff rest _ _ _ _ (by omega)]
      omega

theorem build_isSome_iff (cats : List (List Nat)) :
    (build_shufti_masks cats).isSome ↔ total_groups cats ≤ 7 := by
  rw [build_shufti_masks, total_groups, ← Nat.zero_add ((cats.map _).sum)]
  exact go_isSome_iff cats _ _ _ 0 (by norm_num)

theorem build_none_iff_total (cats : List (List Nat)) :
    build_shufti_masks cats = none ↔ 8 ≤ total_groups cats := by
  rw [← Option.not_isSome_iff_eq_none, build_isSome_iff]
  omega

theorem total_groups_append (a b : List (List Nat)) :
    total_groups (a ++ b) = total_groups a + total_groups b := by
  simp [total_groups]

theorem total_ge8_iff_take (cats : List (List Nat)) :
    8 ≤ total_groups cats
      ↔ ∃ j, j < cats.length ∧ 8 ≤ total_groups (cats.take (j + 1)) := by
  constructor
  · intro h
    have hne : cats.length ≠ 0 := by
      intro h0
      rw [List.length_eq_zero.mp h0] at h
      simp [total_groups] at h
    refine ⟨cats.length - 1, by omega, ?_⟩
    have hlen : cats.length - 1 + 1 = cats.length := by omega
    rw [hlen, List.take_length]
    exact h
  · rintro ⟨j, hj, h⟩
    have hsplit : total_groups cats
        = total_groups (cats.take (j + 1)) + total_groups (cats.drop (j + 1)) := by
      rw [← total_groups_append, List.take_append_drop]
    omega

/-! Characterization of the decoder. -/

theorem parse_shufti_mask_length (high low : List Nat) :
    (parse_shufti_mask high low).length = 8 := by
  simp [parse_shufti_mask]

theorem parse_getD (high low : List Nat) (i : Nat) (hi : i < 8) :
    (parse_shufti_mask high low).getD i ([], [])
      = ((high.enum.filter (fun p => bit_test p.2 i)).map Prod.fst,
          (low.enum.filter (fun p => bit_test p.2 i)).map Prod.fst) := by
  rw [parse_shufti_mask,
    List.getD_eq_getElem _ _ (by simpa using hi), List.getElem_map, List.getElem_range]

theorem mem_parse_nibbles (t : List Nat) (i h : Nat) :
    (h ∈ (t.enum.filter (fun p => bit_test p.2 i)).map Prod.fst
      ↔ h < t.length ∧ Nat.testBit (t.getD h 0) i) := by
  constructor
  · intro hmem
    rcases List.mem_map.mp hmem with ⟨p, hp, rfl⟩
    rcases List.mem_filter.mp hp with ⟨hpe, hbt⟩
    rcases List.getElem?_eq_some.mp (List.mem_enum_iff_getElem?.mp hpe) with ⟨hlt, hget⟩
    refine ⟨hlt, ?_⟩
    rw [List.getD_eq_getElem _ _ hlt, hget, ← bit_test_eq_testBit]
    exact hbt
  · rintro ⟨hlt, hbit⟩
    refine List.mem_map.mpr ⟨(h, t.getD h 0), List.mem_filter.mpr ⟨?_, ?_⟩, rfl⟩
    · refine List.mem_enum_iff_getElem?.mpr ?_
      rw [List.getD_eq_getElem _ _ hlt]
      exact List.getElem?_eq_getElem hlt
    · rw [bit_test_eq_testBit]
      exact hbit

/-! Leftover small facts. -/

theorem exists_testBit_of_ne_zero {x : Nat} (h : x ≠ 0) : ∃ i, Nat.testBit x i := by
  by_contra hno
  push_neg at hno
  refine h (Nat.eq_of_testBit_eq (fun i => ?_))
  rw [Nat.zero_testBit]
  exact Bool.eq_false_iff.mpr (hno i)

theorem natLeB_total : ∀ x y : Nat, (decide (x ≤ y) : Bool) ∨ (decide (y ≤ x) : Bool) := by
  intro x y
  rcases Nat.le_total x y with h | h
  · exact Or.inl (by simpa using h)
  · exact Or.inr (by simpa using h)

theorem natLeB_trans : ∀ x y z : Nat,
    (decide (x ≤ y) : Bool) → (decide (y ≤ z) : Bool) → (decide (x ≤ z) : Bool) := by
  intro x y z h1 h2
  simp only [decide_eq_true_eq] at h1 h2 ⊢
  omega

theorem natLeB_antisymm : ∀ x y : Nat,
    (decide (x ≤ y) : Bool) → (decide (y ≤ x) : Bool) → x = y := by
  intro x y h1 h2
  simp only [decide_eq_true_eq] at h1 h2
  omega

theorem orderedInsert_length (le : α → α → Bool) (a : α) :
    ∀ l : List α, (orderedInsert le a l).length = l.length + 1
  | [] => rfl
  | b :: l => by
    simp only [orderedInsert]
    by_cases h : le a b
    · rw [if_pos h]
      rfl
    · rw [if_neg h]
      simp [orderedInsert_length le a l]

theorem insertionSort_length (le : α → α → Bool) :
    ∀ l : List α, (insertionSort le l).length = l.length
  | [] => rfl
  | a :: l => by
    rw [insertionSort, orderedInsert_length, insertionSort_length le l]
    rfl

theorem groupRuns_ne_nil (key : α → κ) [DecidableEq κ] (l : List α) (h : l ≠ []) :
    groupRuns key l ≠ [] := by
  intro h0
  have := groupRuns_join key l
  rw [h0] at this
  simp at this
  exact h this

/-! Claim theorems. -/

/-- C3, counterexample: eight singleton categories need exactly 8 groups in
total, yet `build_shufti_masks` fails on them (the guard is
`cat_bit + n_cat_bits >= 8`), so "group counts summing to exactly 8 succeed"
is false on the code. -/
theorem claim3_counterexample :
    total_groups [[0x30], [0x31], [0x32], [0x33], [0x34], [0x35], [0x36], [0x37]] = 8
      ∧ build_shufti_masks [[0x30], [0x31], [0x32], [0x33], [0x34], [0x35], [0x36], [0x37]]
        = none := by
  exact ⟨rfl, rfl⟩

/-- C3, amended: compilation succeeds exactly when the per-category group
counts sum to at most 7; any total of 8 or more (in particular 8 and 9) fails
with the capacity error, producing no tables. -/
theorem claim3_amended (cats : List (List Nat)) :
    (build_shufti_masks cats).isSome ↔ total_groups cats ≤ 7 :=
  build_isSome_iff cats

/-- C4: the compiler fails exactly when some category, processed in order,
makes the running bit counter plus its own group count reach 8
(`8 ≤ total_groups (take (j+1))`), and whenever a prefix reaches that point
the run fails no matter what categories follow — the failure is raised at the
first such category, the remaining categories are irrelevant, and no tables
are returned (the `sys.exit(1)` is modelled as `none`). -/
theorem claim4 (cats : List (List Nat)) :
    (build_shufti_masks cats = none
        ↔ ∃ j, j < cats.length ∧ 8 ≤ total_groups (cats.take (j + 1)))
      ∧ (∀ j, j < cats.length → 8 ≤ total_groups (cats.take (j + 1)) →
          ∀ rest, build_shufti_masks (cats.take (j + 1) ++ rest) = none) := by
  constructor
  · rw [build_none_iff_total]
    exact total_ge8_iff_take cats
  · intro j hj h8 rest
    rw [build_none_iff_total, total_groups_append]
    omega

/-- C4 witness: a failing prefix of eight singleton categories also fails
with a further category appended. -/
theorem claim4_witness :
    build_shufti_masks
      ([[0x41], [0x42], [0x43], [0x44], [0x45], [0x46], [0x47], [0x48]].take (7 + 1)
        ++ [[0x49]]) = none :=
  (claim4 [[0x41], [0x42], [0x43], [0x44], [0x45], [0x46], [0x47], [0x48]]).2
    7 (by decide) (by decide) [[0x49]]

/-- C6: when the two grouping strategies tie on group count, the compiler
picks the group-by-low result (`lmask2`); the computation is a pure function,
so the choice is the same on every run. -/
theorem claim6 (cat : List Nat) (hne : cat ≠ [])
    (heq : (hmask2 cat).length = (lmask2 cat).length) :
    cat_groups cat = lmask2 cat := by
  rw [cat_groups, if_neg (by omega)]

/-- C6 witness: the category `"&;"` has 2 groups under both strategies and
the group-by-low result is selected. -/
theorem claim6_witness : cat_groups [0x26, 0x3b] = lmask2 [0x26, 0x3b] :=
  claim6 [0x26, 0x3b] (by decide) (by decide)

/-- C7, counterexample: the five-category scenario compiles, but consumes 7
classification bits (not at most 5), and bit 0 decodes to
`\x7btab, newline, carriage-return\x7d` only — the space character `0x20` is
carried by bit 1, so bit 0 does not yield the four whitespace characters. -/
theorem claim7_counterexample :
    build_shufti_masks [[0x20, 0x09, 0x0a, 0x0d], [0x3c, 0x3e], [0x26, 0x3b], [0x22], [0x3d]]
        = some ([3, 4, 24, 32, 64],
            [1, 0, 42, 84, 0, 0, 0, 0, 0, 0, 0, 0, 0, 0, 0, 0],
            [2, 0, 32, 0, 0, 0, 8, 0, 0, 1, 1, 16, 4, 65, 4, 0])
      ∧ ¬ total_groups [[0x20, 0x09, 0x0a, 0x0d], [0x3c, 0x3e], [0x26, 0x3b], [0x22], [0x3d]] ≤ 5
      ∧ (0x20 : Nat) ∉
          List.bind ((parse_shufti_mask [1, 0, 42, 84, 0, 0, 0, 0, 0, 0, 0, 0, 0, 0, 0, 0] [2, 0, 32, 0, 0, 0, 8, 0, 0, 1, 1, 16, 4, 65, 4, 0]).getD 0 ([], [])).1
            (fun h => List.map (fun l => (h <<< 4) ||| l)
              ((parse_shufti_mask [1, 0, 42, 84, 0, 0, 0, 0, 0, 0, 0, 0, 0, 0, 0, 0] [2, 0, 32, 0, 0, 0, 8, 0, 0, 1, 1, 16, 4, 65, 4, 0]).getD 0 ([], [])).2) := by
  refine ⟨rfl, by decide, by decide⟩

/-- C7, amended: the scenario compiles successfully, consuming 7 bits in
total; decoding bit 0 of the produced tables yields exactly
`\x7btab, newline, carriage-return\x7d`, and the union over the first
category's two assigned bits (its category mask is `3`) yields exactly the
four whitespace characters. -/
theorem claim7_amended :
    build_shufti_masks [[0x20, 0x09, 0x0a, 0x0d], [0x3c, 0x3e], [0x26, 0x3b], [0x22], [0x3d]]
        = some ([3, 4, 24, 32, 64],
            [1, 0, 42, 84, 0, 0, 0, 0, 0, 0, 0, 0, 0, 0, 0, 0],
            [2, 0, 32, 0, 0, 0, 8, 0, 0, 1, 1, 16, 4, 65, 4, 0])
      ∧ total_groups [[0x20, 0x09, 0x0a, 0x0d], [0x3c, 0x3e], [0x26, 0x3b], [0x22], [0x3d]] = 7
      ∧ List.bind ((parse_shufti_mask [1, 0, 42, 84, 0, 0, 0, 0, 0, 0, 0, 0, 0, 0, 0, 0] [2, 0, 32, 0, 0, 0, 8, 0, 0, 1, 1, 16, 4, 65, 4, 0]).getD 0 ([], [])).1
            (fun h => List.map (fun l => (h <<< 4) ||| l)
              ((parse_shufti_mask [1, 0, 42, 84, 0, 0, 0, 0, 0, 0, 0, 0, 0, 0, 0, 0] [2, 0, 32, 0, 0, 0, 8, 0, 0, 1, 1, 16, 4, 65, 4, 0]).getD 0 ([], [])).2)
          = [0x09, 0x0a, 0x0d]
      ∧ List.bind ([0, 1] : List Nat)
            (fun i => List.bind ((parse_shufti_mask [1, 0, 42, 84, 0, 0, 0, 0, 0, 0, 0, 0, 0, 0, 0, 0] [2, 0, 32, 0, 0, 0, 8, 0, 0, 1, 1, 16, 4, 65, 4, 0]).getD i ([], [])).1
              (fun h => List.map (fun l => (h <<< 4) ||| l)
                ((parse_shufti_mask [1, 0, 42, 84, 0, 0, 0, 0, 0, 0, 0, 0, 0, 0, 0, 0] [2, 0, 32, 0, 0, 0, 8, 0, 0, 1, 1, 16, 4, 65, 4, 0]).getD i ([], [])).2))
          = [0x09, 0x0a, 0x0d, 0x20] := by
  refine ⟨rfl, rfl, rfl, rfl⟩

/-- C10: on every successful compilation only bits 0 through 6 are ever
assigned (the guard already rejects `cat_bit + n >= 8`), so bit 7 is unused
and every table entry and category mask is strictly below `0x80`. -/
theorem claim10 (cats : List (List Nat)) (ms hm lm : List Nat)
    (hres : build_shufti_masks cats = some (ms, hm, lm)) :
    (∀ x ∈ hm, x < 0x80) ∧ (∀ x ∈ lm, x < 0x80) ∧ (∀ x ∈ ms, x < 0x80) := by
  obtain ⟨-, -, -, -, c5, c6, c7, -⟩ :=
    go_bounds cats _ _ [] 0 ms hm lm (by simp) (by simp) (by norm_num)
      (by simp) (by simp) (by simp) hres
  refine ⟨fun x hx => ?_, fun x hx => ?_, fun x hx => ?_⟩
  · have := c5 x hx
    norm_num at this
    exact this
  · have := c6 x hx
    norm_num at this
    exact this
  · have := c7 x hx
    norm_num at this
    exact this

/-- C10 witness: the single category mask of the compilation of `"a"` is
below `0x80`. -/
theorem claim10_witness : (1 : Nat) < 0x80 :=
  (claim10 [[0x61]] [1]
      [0, 0, 0, 0, 0, 0, 1, 0, 0, 0, 0, 0, 0, 0, 0, 0]
      [0, 1, 0, 0, 0, 0, 0, 0, 0, 0, 0, 0, 0, 0, 0, 0] rfl).2.2 1 (by decide)

/-- C1: for a successful compilation of categories whose members are bytes,
`(high_mask[b >> 4] & low_mask[b & 0xF]) & cat_masks[c] != 0` holds exactly
when byte `b` is a member of category `c`. -/
theorem claim1 (cats : List (List Nat)) (ms hm lm : List Nat)
    (hmem : ∀ cat ∈ cats, ∀ o ∈ cat, o < 256)
    (hres : build_shufti_masks cats = some (ms, hm, lm))
    (c : Nat) (hc : c < cats.length) (b : Nat) (hb : b < 256) :
    ((hm.getD (b >>> 4) 0 &&& lm.getD (b &&& 0x0f) 0) &&& ms.getD c 0) ≠ 0
      ↔ b ∈ cats.getD c [] := by
  have hcore := go_correct cats (List.replicate 16 0) (List.replicate 16 0) []
    0 ms hm lm (by simp) (by simp) (by norm_num) (by simp) (by simp) (by simp)
    hmem hres c hc b
  simp only [List.length_nil, Nat.zero_add] at hcore
  obtain ⟨-, -, c3, -, -, -, c7, -⟩ :=
    go_bounds cats _ _ [] 0 ms hm lm (by simp) (by simp) (by norm_num)
      (by simp) (by simp) (by simp) hres
  simp only [List.length_nil, Nat.zero_add] at c3
  have hmslt : ms.getD c 0 < 2 ^ 7 := by
    rw [List.getD_eq_getElem _ _ (by omega : c < ms.length)]
    exact c7 _ (List.getElem_mem _)
  constructor
  · intro hne
    obtain ⟨i, hbit⟩ := exists_testBit_of_ne_zero hne
    rw [Nat.testBit_land, Nat.testBit_land, Bool.and_eq_true, Bool.and_eq_true] at hbit
    obtain ⟨⟨hbh, hbl⟩, hbm⟩ := hbit
    have hi8 : i < 8 := by
      by_contra hge
      rw [Nat.testBit_lt_two_pow
        (lt_of_lt_of_le hmslt (pow_le_pow_two (by omega)))] at hbm
      exact Bool.false_ne_true hbm
    exact hcore.mpr ⟨i, hi8, hbm, b >>> 4, b &&& 0x0f, high_lt_16 b hb,
      low_lt_16 b, hbh, hbl, (nibble_recompose b).symm⟩
  · intro hbmem
    rcases hcore.mp hbmem with ⟨i, hi, hms, h, l, hh16, hl16, hHM, hLM, hcomb⟩
    have hh' : b >>> 4 = h := by rw [hcomb, combine_shiftRight h l hl16]
    have hl' : b &&& 0x0f = l := by
      show b &&& 15 = l
      rw [hcomb, combine_and h l hl16]
    intro h0
    have hbit : Nat.testBit
        ((hm.getD (b >>> 4) 0 &&& lm.getD (b &&& 0x0f) 0) &&& ms.getD c 0) i := by
      rw [Nat.testBit_land, Nat.testBit_land, hh', hl', hHM, hLM, hms]
      rfl
    rw [h0, Nat.zero_testBit] at hbit
    exact Bool.false_ne_true hbit

/-- C1 witness: the compilation of the single category `"a"` classifies the
byte `0x61` into category 0. -/
theorem claim1_witness :
    (([0, 0, 0, 0, 0, 0, 1, 0, 0, 0, 0, 0, 0, 0, 0, 0] : List Nat).getD (0x61 >>> 4) 0
        &&& ([0, 1, 0, 0, 0, 0, 0, 0, 0, 0, 0, 0, 0, 0, 0, 0] : List Nat).getD (0x61 &&& 0x0f) 0)
        &&& ([1] : List Nat).getD 0 0 ≠ 0
      ↔ (0x61 : Nat) ∈ ([[0x61]] : List (List Nat)).getD 0 [] :=
  claim1 [[0x61]] [1]
    [0, 0, 0, 0, 0, 0, 1, 0, 0, 0, 0, 0, 0, 0, 0, 0]
    [0, 1, 0, 0, 0, 0, 0, 0, 0, 0, 0, 0, 0, 0, 0, 0]
    (by decide) rfl 0 (by decide) 0x61 (by decide)

/-- C2: round-trip through the decoder — a byte belongs to category `c`
exactly when, for some bit of that category's mask, the byte is the
recombination of a high nibble and a low nibble listed by
`parse_shufti_mask` for that bit. -/
theorem claim2 (cats : List (List Nat)) (ms hm lm : List Nat)
    (hmem : ∀ cat ∈ cats, ∀ o ∈ cat, o < 256)
    (hres : build_shufti_masks cats = some (ms, hm, lm))
    (c : Nat) (hc : c < cats.length) (b : Nat) :
    b ∈ cats.getD c []
      ↔ ∃ i, i < 8 ∧ Nat.testBit (ms.getD c 0) i
        ∧ ∃ h l, h ∈ ((parse_shufti_mask hm lm).getD i ([], [])).1
          ∧ l ∈ ((parse_shufti_mask hm lm).getD i ([], [])).2
          ∧ b = (h <<< 4) ||| l := by
  have hcore := go_correct cats (List.replicate 16 0) (List.replicate 16 0) []
    0 ms hm lm (by simp) (by simp) (by norm_num) (by simp) (by simp) (by simp)
    hmem hres c hc b
  simp only [List.length_nil, Nat.zero_add] at hcore
  obtain ⟨c1, c2, -, -, -, -, -, -⟩ :=
    go_bounds cats _ _ [] 0 ms hm lm (by simp) (by simp) (by norm_num)
      (by simp) (by simp) (by simp) hres
  rw [hcore]
  constructor
  · rintro ⟨i, hi, hms, h, l, hh16, hl16, hHM, hLM, hcomb⟩
    refine ⟨i, hi, hms, h, l, ?_, ?_, hcomb⟩
    · rw [parse_getD hm lm i hi]
      exact (mem_parse_nibbles hm i h).mpr ⟨by omega, hHM⟩
    · rw [parse_getD hm lm i hi]
      exact (mem_parse_nibbles lm i l).mpr ⟨by omega, hLM⟩
  · rintro ⟨i, hi, hms, h, l, hph, hpl, hcomb⟩
    rw [parse_getD hm lm i hi] at hph hpl
    rcases (mem_parse_nibbles hm i h).mp hph with ⟨hlth, hbith⟩
    rcases (mem_parse_nibbles lm i l).mp hpl with ⟨hltl, hbitl⟩
    exact ⟨i, hi, hms, h, l, by omega, by omega, hbith, hbitl, hcomb⟩

/-- C2 witness: decoding the compilation of the single category `"a"`
recovers the byte `0x61` from bit 0. -/
theorem claim2_witness :
    (0x61 : Nat) ∈ ([[0x61]] : List (List Nat)).getD 0 []
      ↔ ∃ i, i < 8 ∧ Nat.testBit (([1] : List Nat).getD 0 0) i
        ∧ ∃ h l,
          h ∈ ((parse_shufti_mask
            [0, 0, 0, 0, 0, 0, 1, 0, 0, 0, 0, 0, 0, 0, 0, 0]
            [0, 1, 0, 0, 0, 0, 0, 0, 0, 0, 0, 0, 0, 0, 0, 0]).getD i ([], [])).1
          ∧ l ∈ ((parse_shufti_mask
            [0, 0, 0, 0, 0, 0, 1, 0, 0, 0, 0, 0, 0, 0, 0, 0]
            [0, 1, 0, 0, 0, 0, 0, 0, 0, 0, 0, 0, 0, 0, 0, 0]).getD i ([], [])).2
          ∧ (0x61 : Nat) = (h <<< 4) ||| l :=
  claim2 [[0x61]] [1]
    [0, 0, 0, 0, 0, 0, 1, 0, 0, 0, 0, 0, 0, 0, 0, 0]
    [0, 1, 0, 0, 0, 0, 0, 0, 0, 0, 0, 0, 0, 0, 0, 0]
    (by decide) rfl 0 (by decide) 0x61

/-- Rebuilding one 16-entry table from its parsed per-bit nibble sets
reproduces the table, entry by entry, when every entry fits in 8 bits. -/
theorem rebuild_table_high (high low : List Nat) (hh : high.length = 16)
    (hbh : ∀ x ∈ high, x < 256) :
    (build_nibble_masks (parse_shufti_mask high low) 0).1 = high := by
  have hplen : (parse_shufti_mask high low).length = 8 :=
    parse_shufti_mask_length high low
  refine List.ext_getElem (by rw [(build_nibble_masks_length _ 0).1, hh]) ?_
  intro n h1 h2
  have hn : n < 16 := by
    rw [hh] at h2
    exact h2
  rw [← List.getD_eq_getElem _ 0 h1, ← List.getD_eq_getElem _ 0 h2]
  apply Nat.eq_of_testBit_eq
  intro i
  rw [Bool.eq_iff_iff]
  rw [testBit_build_nibble_high (parse_shufti_mask high low) 0 n i hn]
  constructor
  · rintro ⟨k, hk, rfl, hmem⟩
    rw [hplen] at hk
    rw [parse_getD high low k hk] at hmem
    rcases (mem_parse_nibbles high k n).mp hmem with ⟨-, hbit⟩
    simpa using hbit
  · intro hbit
    have hi8 : i < 8 := by
      by_contra hge
      have hlt : high.getD n 0 < 2 ^ i := by
        refine lt_of_lt_of_le (hbh _ ?_) ?_
        · rw [List.getD_eq_getElem _ _ (by omega : n < high.length)]
          exact List.getElem_mem _
        · calc (256 : Nat) = 2 ^ 8 := by norm_num
            _ ≤ 2 ^ i := pow_le_pow_two (by omega)
      rw [Nat.testBit_lt_two_pow hlt] at hbit
      exact Bool.false_ne_true hbit
    refine ⟨i, by omega, by omega, ?_⟩
    rw [parse_getD high low i hi8]
    exact (mem_parse_nibbles high i n).mpr ⟨by omega, hbit⟩

theorem rebuild_table_low (high low : List Nat) (hl : low.length = 16)
    (hbl : ∀ x ∈ low, x < 256) :
    (build_nibble_masks (parse_shufti_mask high low) 0).2 = low := by
  have hplen : (parse_shufti_mask high low).length = 8 :=
    parse_shufti_mask_length high low
  refine List.ext_getElem (by rw [(build_nibble_masks_length _ 0).2, hl]) ?_
  intro n h1 h2
  have hn : n < 16 := by
    rw [hl] at h2
    exact h2
  rw [← List.getD_eq_getElem _ 0 h1, ← List.getD_eq_getElem _ 0 h2]
  apply Nat.eq_of_testBit_eq
  intro i
  rw [Bool.eq_iff_iff]
  rw [testBit_build_nibble_low (parse_shufti_mask high low) 0 n i hn]
  constructor
  · rintro ⟨k, hk, rfl, hmem⟩
    rw [hplen] at hk
    rw [parse_getD high low k hk] at hmem
    rcases (mem_parse_nibbles low k n).mp hmem with ⟨-, hbit⟩
    simpa using hbit
  · intro hbit
    have hi8 : i < 8 := by
      by_contra hge
      have hlt : low.getD n 0 < 2 ^ i := by
        refine lt_of_lt_of_le (hbl _ ?_) ?_
        · rw [List.getD_eq_getElem _ _ (by omega : n < low.length)]
          exact List.getElem_mem _
        · calc (256 : Nat) = 2 ^ 8 := by norm_num
            _ ≤ 2 ^ i := pow_le_pow_two (by omega)
      rw [Nat.testBit_lt_two_pow hlt] at hbit
      exact Bool.false_ne_true hbit
    refine ⟨i, by omega, by omega, ?_⟩
    rw [parse_getD high low i hi8]
    exact (mem_parse_nibbles low i n).mpr ⟨by omega, hbit⟩

/-- C9: for arbitrary 16-entry tables of byte values (not only
compiler-produced ones), re-encoding the decoder's output with
`build_nibble_masks` at starting bit 0 reproduces the tables exactly. -/
theorem claim9 (high low : List Nat) (hh : high.length = 16) (hl : low.length = 16)
    (hbh : ∀ x ∈ high, x < 256) (hbl : ∀ x ∈ low, x < 256) :
    build_nibble_masks (parse_shufti_mask high low) 0 = (high, low) := by
  rw [Prod.ext_iff]
  exact ⟨rebuild_table_high high low hh hbh, rebuild_table_low high low hl hbl⟩

/-- C9 witness: the debug tables hard-coded in `parseshufmap.py` round-trip
through the decoder and re-encoder. -/
theorem claim9_witness :
    build_nibble_masks (parse_shufti_mask
        [8, 0, 18, 4, 0, 1, 0, 1, 0, 0, 0, 3, 2, 1, 0, 0]
        [16, 0, 0, 0, 0, 0, 0, 0, 0, 8, 12, 1, 2, 9, 0, 0]) 0
      = ([8, 0, 18, 4, 0, 1, 0, 1, 0, 0, 0, 3, 2, 1, 0, 0],
          [16, 0, 0, 0, 0, 0, 0, 0, 0, 8, 12, 1, 2, 9, 0, 0]) :=
  claim9 [8, 0, 18, 4, 0, 1, 0, 1, 0, 0, 0, 3, 2, 1, 0, 0]
    [16, 0, 0, 0, 0, 0, 0, 0, 0, 8, 12, 1, 2, 9, 0, 0]
    (by decide) (by decide) (by decide) (by decide)

/-- The first components of `hmask1` entries are singletons holding the
distinct high-nibble keys, so the head determines the entry. -/
theorem hmask1_headD_inj (cat : List Nat) (p q : List Nat × List Nat)
    (hp : p ∈ hmask1 cat) (hq : q ∈ hmask1 cat)
    (h : p.1.headD 0 = q.1.headD 0) : p = q := by
  rcases List.mem_map.mp hp with ⟨a, ha, rfl⟩
  rcases List.mem_map.mp hq with ⟨b, hb, rfl⟩
  simp only [List.headD_cons] at h
  have h2 := pairwise_ne_unique _
    (gbu_keys_ne (cat_items cat) Item.high (fun a b => decide (a ≤ b))
      natLeB_total natLeB_trans natLeB_antisymm) a b ha hb h
  have hab : a = b := Prod.ext_iff.mpr ⟨h, h2⟩
  rw [hab]

theorem lmask1_headD_inj (cat : List Nat) (p q : List Nat × List Nat)
    (hp : p ∈ lmask1 cat) (hq : q ∈ lmask1 cat)
    (h : p.2.headD 0 = q.2.headD 0) : p = q := by
  rcases List.mem_map.mp hp with ⟨a, ha, rfl⟩
  rcases List.mem_map.mp hq with ⟨b, hb, rfl⟩
  simp only [List.headD_cons] at h
  have h2 := pairwise_ne_unique _
    (gbu_keys_ne (cat_items cat) Item.low (fun a b => decide (a ≤ b))
      natLeB_total natLeB_trans natLeB_antisymm) a b ha hb h
  have hab : a = b := Prod.ext_iff.mpr ⟨h, h2⟩
  rw [hab]

/-- C5, counterexample: in the category `[0x12, 0x21, 0x11, 0x22]` the two
high-nibble partitions have low-value lists `[2, 1]` and `[1, 2]` — identical
as sets — yet `hmask2` keeps them as two separate groups, because the code
merges on equality of the low-value lists, not of the underlying sets. -/
theorem claim5_counterexample :
    hmask1 [0x12, 0x21, 0x11, 0x22] = [([1], [2, 1]), ([2], [1, 2])]
      ∧ ([2, 1] : List Nat).toFinset = ([1, 2] : List Nat).toFinset
      ∧ hmask2 [0x12, 0x21, 0x11, 0x22] = [([2], [1, 2]), ([1], [2, 1])] := by
  refine ⟨rfl, by decide, rfl⟩

/-- C5, amended: two high-nibble partitions end up in a common merged group
exactly when their low-value lists — the member low nibbles in category
order — are equal as lists (order and multiplicity included), and
symmetrically for the group-by-low strategy. -/
theorem claim5_amended (cat : List Nat) :
    (∀ p q, p ∈ hmask1 cat → q ∈ hmask1 cat →
      ((∃ g ∈ hmask2 cat, p.1.headD 0 ∈ g.1 ∧ q.1.headD 0 ∈ g.1) ↔ p.2 = q.2))
    ∧ (∀ p q, p ∈ lmask1 cat → q ∈ lmask1 cat →
      ((∃ g ∈ lmask2 cat, p.2.headD 0 ∈ g.2 ∧ q.2.headD 0 ∈ g.2) ↔ p.1 = q.1)) := by
  constructor
  · intro p q hp hq
    constructor
    · rintro ⟨g, hg, hhp, hhq⟩
      rcases List.mem_map.mp hg with ⟨r, hr, rfl⟩
      rcases List.mem_map.mp hhp with ⟨p', hp', hep⟩
      rcases List.mem_map.mp hhq with ⟨q', hq', heq⟩
      have hp'm : p' ∈ hmask1 cat := gbu_elem_mem _ Prod.snd listLeB r hr p' hp'
      have hq'm : q' ∈ hmask1 cat := gbu_elem_mem _ Prod.snd listLeB r hr q' hq'
      have hpp : p' = p := hmask1_headD_inj cat p' p hp'm hp hep
      have hqq : q' = q := hmask1_headD_inj cat q' q hq'm hq heq
      have h1 : p'.2 = r.1 := gbu_key_eq _ Prod.snd listLeB r hr p' hp'
      have h2 : q'.2 = r.1 := gbu_key_eq _ Prod.snd listLeB r hr q' hq'
      rw [← hpp, ← hqq, h1, h2]
    · intro hpq
      rcases gbu_cover (hmask1 cat) Prod.snd listLeB p hp with ⟨r, hr, hpr⟩
      have hqr : q ∈ r.2 :=
        gbu_complete (hmask1 cat) Prod.snd listLeB listLeB_total listLeB_trans
          listLeB_antisymm r hr q hq
          (by rw [← hpq]; exact gbu_key_eq _ Prod.snd listLeB r hr p hpr)
      exact ⟨(r.2.map (fun x => x.1.headD 0), r.1), List.mem_map.mpr ⟨r, hr, rfl⟩,
        List.mem_map.mpr ⟨p, hpr, rfl⟩, List.mem_map.mpr ⟨q, hqr, rfl⟩⟩
  · intro p q hp hq
    constructor
    · rintro ⟨g, hg, hhp, hhq⟩
      rcases List.mem_map.mp hg with ⟨r, hr, rfl⟩
      rcases List.mem_map.mp hhp with ⟨p', hp', hep⟩
      rcases List.mem_map.mp hhq with ⟨q', hq', heq⟩
      have hp'm : p' ∈ lmask1 cat := gbu_elem_mem _ Prod.fst listLeB r hr p' hp'
      have hq'm : q' ∈ lmask1 cat := gbu_elem_mem _ Prod.fst listLeB r hr q' hq'
      have hpp : p' = p := lmask1_headD_inj cat p' p hp'm hp hep
      have hqq : q' = q := lmask1_headD_inj cat q' q hq'm hq heq
      have h1 : p'.1 = r.1 := gbu_key_eq _ Prod.fst listLeB r hr p' hp'
      have h2 : q'.1 = r.1 := gbu_key_eq _ Prod.fst listLeB r hr q' hq'
      rw [← hpp, ← hqq, h1, h2]
    · intro hpq
      rcases gbu_cover (lmask1 cat) Prod.fst listLeB p hp with ⟨r, hr, hpr⟩
      have hqr : q ∈ r.2 :=
        gbu_complete (lmask1 cat) Prod.fst listLeB listLeB_total listLeB_trans
          listLeB_antisymm r hr q hq
          (by rw [← hpq]; exact gbu_key_eq _ Prod.fst listLeB r hr p hpr)
      exact ⟨(r.1, r.2.map (fun x => x.2.headD 0)), List.mem_map.mpr ⟨r, hr, rfl⟩,
        List.mem_map.mpr ⟨p, hpr, rfl⟩, List.mem_map.mpr ⟨q, hqr, rfl⟩⟩

/-- C5 witness: at the counterexample category the two partitions with
unequal low-value lists share no merged group. -/
theorem claim5_witness :
    ¬ ∃ g ∈ hmask2 [0x12, 0x21, 0x11, 0x22],
      (([1], [2, 1]) : List Nat × List Nat).1.headD 0 ∈ g.1
        ∧ (([2], [1, 2]) : List Nat × List Nat).1.headD 0 ∈ g.1 := fun hex =>
  absurd (((claim5_amended [0x12, 0x21, 0x11, 0x22]).1 ([1], [2, 1]) ([2], [1, 2])
    (by decide) (by decide)).mp hex) (by decide)

/-- C8: a non-empty category whose members all share one high nibble yields
exactly one nibble group, whichever strategy the tie-break selects. -/
theorem claim8 (cat : List Nat) (hne : cat ≠ [])
    (hsame : ∀ o₁ ∈ cat, ∀ o₂ ∈ cat, o₁ >>> 4 = o₂ >>> 4) :
    (cat_groups cat).length = 1 := by
  obtain ⟨o0, ho0⟩ := List.exists_mem_of_ne_nil cat hne
  have hitemsne : cat_items cat ≠ [] := by
    simp only [cat_items, ne_eq, List.map_eq_nil]
    exact hne
  have hsne : insertionSort (fun x y => decide (Item.high x ≤ Item.high y))
      (cat_items cat) ≠ [] := by
    intro h
    have hlen := insertionSort_length
      (fun x y => decide (Item.high x ≤ Item.high y)) (cat_items cat)
    rw [h] at hlen
    exact hitemsne (List.length_eq_zero.mp hlen.symm)
  have hkeys : ∀ x ∈ insertionSort (fun x y => decide (Item.high x ≤ Item.high y))
      (cat_items cat), Item.high x = o0 >>> 4 := by
    intro x hx
    rcases List.mem_map.mp ((mem_insertionSort _ x _).mp hx) with ⟨o, ho, rfl⟩
    exact hsame o ho o0 ho0
  have hred : hreduce cat
      = [(o0 >>> 4, insertionSort (fun x y => decide (Item.high x ≤ Item.high y))
          (cat_items cat))] :=
    groupRuns_const Item.high (o0 >>> 4) _ hsne hkeys
  have hm2len : (hmask2 cat).length = 1 := by
    rw [hmask2, hmask1, hred]
    rfl
  have hlred_ne : lreduce cat ≠ [] := by
    apply groupRuns_ne_nil
    intro h
    have hlen := insertionSort_length
      (fun x y => decide (Item.low x ≤ Item.low y)) (cat_items cat)
    rw [h] at hlen
    exact hitemsne (List.length_eq_zero.mp hlen.symm)
  have hlm1ne : lmask1 cat ≠ [] := by
    simp only [lmask1, ne_eq, List.map_eq_nil]
    exact hlred_ne
  have hl2ne : lmask2 cat ≠ [] := by
    simp only [lmask2, ne_eq, List.map_eq_nil]
    apply groupRuns_ne_nil
    intro h
    have hlen := insertionSort_length
      (fun x y => listLeB x.1 y.1) (lmask1 cat)
    rw [h] at hlen
    exact hlm1ne (List.length_eq_zero.mp hlen.symm)
  rw [cat_groups]
  by_cases hc : (hmask2 cat).length < (lmask2 cat).length
  · rw [if_pos hc]
    exact hm2len
  · rw [if_neg hc]
    have hle : (lmask2 cat).length ≤ (hmask2 cat).length := Nat.le_of_not_lt hc
    have hpos : 1 ≤ (lmask2 cat).length := List.length_pos.mpr hl2ne
    omega

/-- C8 witness: the category `"05"` (bytes `0x30`, `0x35`, both high nibble
3) gets a single group. -/
theorem claim8_witness : (cat_groups [0x30, 0x35]).length = 1 :=
  claim8 [0x30, 0x35] (by decide) (by decide)

end Xrs
